import Mathlib

/-!
Verification model of the JoshuaLim25/db key-value store.
The definitions below are a shallow embedding of the Go source:
bytes are lists of naturals, heap pointers are arena indices, and
Go loops become fuel or measure based recursion mirroring the source
control flow statement by statement.
-/

namespace DbModel

/-- MaxKeys from btree/node.go: maximum number of keys per node. -/
def MaxKeys : Nat := 4

/-- MinKeys from btree/node.go: MaxKeys / 2. -/
def MinKeys : Nat := MaxKeys / 2

/-- A Go byte slice value (a sequence of bytes). -/
abbrev Bytes := List Nat

/-- Go bytes.Compare: unsigned bytewise lexicographic comparison. -/
def bytesCompare : Bytes → Bytes → Ordering
  | [], [] => .eq
  | [], _ :: _ => .lt
  | _ :: _, [] => .gt
  | a :: as, b :: bs =>
    if a < b then .lt else if b < a then .gt else bytesCompare as bs

/-- Go bytes.Equal on the byte sequences (a nil slice reads as empty). -/
def bytesEqual (a b : Bytes) : Bool := a == b

/-- The byte sequence a Go function sees for a possibly nil slice. -/
def goBytes (x : Option Bytes) : Bytes := x.getD []

/-- The Go builtin copy of src into dst starting at position start,
truncating at the length of dst: models copy(dst[start:], src). -/
def goCopy {α : Type} (dst : List α) (start : Nat) : List α → List α
  | [] => dst
  | x :: xs => if start < dst.length then goCopy (dst.set start x) (start + 1) xs else dst

/-- Node type tag from btree/node.go. -/
inductive NTy | leaf | internal
  deriving DecidableEq, Repr

/-- btree.Node: keys, parallel values, child links, leaf chain link,
parent link and current key count.  Pointers are arena indices, a nil
pointer is none, a nil byte slice in a slot is none. -/
structure NodeRec where
  ty : NTy
  keys : List (Option Bytes)
  values : List (Option Bytes)
  children : List (Option Nat)
  next : Option Nat
  parent : Option Nat
  numKeys : Nat
  deriving DecidableEq, Repr

/-- btree.NewLeafNode. -/
def newLeafNode : NodeRec :=
  { ty := .leaf, keys := List.replicate MaxKeys none,
    values := List.replicate MaxKeys none, children := [],
    next := none, parent := none, numKeys := 0 }

/-- btree.NewInternalNode. -/
def newInternalNode : NodeRec :=
  { ty := .internal, keys := List.replicate MaxKeys none, values := [],
    children := List.replicate (MaxKeys + 1) none,
    next := none, parent := none, numKeys := 0 }

/-- Node.IsLeaf. -/
def NodeRec.isLeaf (n : NodeRec) : Bool := n.ty == .leaf

/-- Node.KeyAt: nil outside the range of stored keys. -/
def keyAt (n : NodeRec) (i : Nat) : Option Bytes :=
  if i < n.numKeys then n.keys.getD i none else none

/-- Node.ValueAt: nil for internal nodes or outside the stored range. -/
def valueAt (n : NodeRec) (i : Nat) : Option Bytes :=
  if n.isLeaf = true ∧ i < n.numKeys then n.values.getD i none else none

/-- Node.ChildAt: nil for leaves or for an index above numKeys. -/
def childAt (n : NodeRec) (i : Nat) : Option Nat :=
  if n.isLeaf = true ∨ i > n.numKeys then none else n.children.getD i none

/-- Node.IsFull. -/
def NodeRec.isFull (n : NodeRec) : Bool := n.numKeys == MaxKeys

/-- Node.IsUnderflow: roots are never in underflow. -/
def NodeRec.isUnderflow (n : NodeRec) : Bool :=
  if n.parent = none then false else decide (n.numKeys < MinKeys)

/-- btree.BTree: arena of nodes, root pointer and element count. -/
structure Tree where
  nodes : List NodeRec
  root : Option Nat
  size : Int
  deriving DecidableEq, Repr

/-- btree.New. -/
def newTree : Tree := { nodes := [newLeafNode], root := some 0, size := 0 }

/-- Dereference a node pointer (arena index). -/
def getN (t : Tree) (i : Nat) : Option NodeRec := t.nodes[i]?

/-- Write through a node pointer. -/
def setN (t : Tree) (i : Nat) (r : NodeRec) : Tree := { t with nodes := t.nodes.set i r }

/-- Loop of BTree.findChildIndex: first key the target is below.  The
last argument counts the remaining iterations (numKeys - i), making the
recursion structural; it is always instantiated so that it runs out
exactly when the loop condition i < numKeys fails. -/
def findChildIndexGo (n : NodeRec) (key : Bytes) : Nat → Nat → Nat
  | _, 0 => n.numKeys
  | i, r + 1 =>
    if i < n.numKeys then
      if bytesCompare key (goBytes (keyAt n i)) = .lt then i
      else findChildIndexGo n key (i + 1) r
    else n.numKeys

/-- BTree.findChildIndex. -/
def findChildIndex (n : NodeRec) (key : Bytes) : Nat := findChildIndexGo n key 0 n.numKeys

/-- Loop of BTree.findKeyIndex: skips nil keys, stops at the first
stored key that is not below the target.  Remaining iteration count as
in findChildIndexGo. -/
def findKeyIndexGo (n : NodeRec) (key : Bytes) : Nat → Nat → Nat
  | _, 0 => n.numKeys
  | i, r + 1 =>
    if i < n.numKeys then
      match keyAt n i with
      | none => findKeyIndexGo n key (i + 1) r
      | some nodeKey =>
        if bytesCompare key nodeKey ≠ .gt then i else findKeyIndexGo n key (i + 1) r
    else n.numKeys

/-- BTree.findKeyIndex (returns 0 for a nil node). -/
def findKeyIndex : Option NodeRec → Bytes → Nat
  | none, _ => 0
  | some n, key => findKeyIndexGo n key 0 n.numKeys

/-- Loop of BTree.findLeaf: descend while the current node is internal,
breaking when the selected child pointer is nil.  Fuel bounds the walk,
matching the finite descent of the Go loop on the trees the code builds. -/
def findLeafLoop (t : Tree) (key : Bytes) (cur : Nat) : Nat → Nat
  | 0 => cur
  | fuel + 1 =>
    match getN t cur with
    | none => cur
    | some n =>
      if n.isLeaf then cur
      else
        match childAt n (findChildIndex n key) with
        | none => cur
        | some c => findLeafLoop t key c fuel

/-- BTree.Get. -/
def getOp (t : Tree) (key : Bytes) : Option Bytes × Bool :=
  match t.root with
  | none => (none, false)
  | some r =>
    let leafId := findLeafLoop t key r (t.nodes.length + 1)
    match getN t leafId with
    | none => (none, false)
    | some leaf =>
      let index := findKeyIndex (some leaf) key
      if index < leaf.numKeys ∧ bytesEqual (goBytes (keyAt leaf index)) key = true then
        (valueAt leaf index, true)
      else (none, false)

/-- The descending shift loop of BTree.insertIntoLeaf, with its bounds
guards: for i := leaf.NumKeys; i > index and i > 0; i-- . -/
def shiftRightFrom (n : NodeRec) (index : Nat) : Nat → NodeRec
  | 0 => n
  | i + 1 =>
    if i + 1 > index then
      let m := if i + 1 < MaxKeys ∧ i < MaxKeys then
          { n with keys := n.keys.set (i + 1) (n.keys.getD i none),
                   values := n.values.set (i + 1) (n.values.getD i none) }
        else n
      shiftRightFrom m index i
    else n

/-- The descending shift loop of BTree.insertIntoParent:
for i := parent.NumKeys; i > index; i-- . -/
def parentShiftFrom (n : NodeRec) (index : Nat) : Nat → NodeRec
  | 0 => n
  | i + 1 =>
    if i + 1 > index then
      let m := { n with keys := n.keys.set (i + 1) (n.keys.getD i none),
                        children := n.children.set (i + 2) (n.children.getD (i + 1) none) }
      parentShiftFrom m index i
    else n

/-- The move loop of BTree.splitInternal:
for i := midIndex+1; i < MaxKeys; i++ moves key i and child i to the new
node and repoints the moved child at its new parent.  The last argument
counts the remaining iterations (MaxKeys - i). -/
def splitInternalMoveGo (nodeId newId : Nat) : Tree → Nat → Nat → Tree
  | t, _, 0 => t
  | t, i, r + 1 =>
    if i < MaxKeys then
      let t2 := match getN t nodeId, getN t newId with
        | some nd, some nw =>
          let j := i - (MaxKeys / 2) - 1
          let movedKey := nd.keys.getD i none
          let movedChild := nd.children.getD i none
          let nw2 := { nw with keys := nw.keys.set j movedKey,
                               children := nw.children.set j movedChild }
          let nd2 := { nd with keys := nd.keys.set i none,
                               children := nd.children.set i none }
          let t3 := setN (setN t nodeId nd2) newId nw2
          match movedChild with
          | some cid =>
            match getN t3 cid with
            | some c => setN t3 cid { c with parent := some newId }
            | none => t3
          | none => t3
        | _, _ => t
      splitInternalMoveGo nodeId newId t2 (i + 1) r
    else t

/-- The move loop of BTree.splitInternal starting at index i. -/
def splitInternalMove (t : Tree) (nodeId newId : Nat) (i : Nat) : Tree :=
  splitInternalMoveGo nodeId newId t i (MaxKeys - i)

/-- The parent record after the shift loop and separator insertion of
BTree.insertIntoParent: index := findKeyIndex, the descending shift,
then Keys[index] = key, Children[index+1] = rightChild, NumKeys++. -/
def insertedParent (parent : NodeRec) (key : Option Bytes) (rightId : Nat) : NodeRec :=
  let index := findKeyIndex (some parent) (goBytes key)
  let parent := parentShiftFrom parent index parent.numKeys
  { parent with keys := parent.keys.set index key,
                children := parent.children.set (index + 1) (some rightId),
                numKeys := parent.numKeys + 1 }

/-- The new root construction of BTree.splitAndInsert, BTree.splitLeaf
and BTree.splitInternal: a fresh internal node holding the separator
key over the two split halves, both reparented under it, becomes the
root. -/
def newRootStep (t : Tree) (nodeId newId : Nat) (middleKey : Option Bytes) : Tree :=
  let rootId := t.nodes.length
  let newRoot := { newInternalNode with
      keys := newInternalNode.keys.set 0 middleKey,
      children := (newInternalNode.children.set 0 (some nodeId)).set 1 (some newId),
      numKeys := 1 }
  let t := { t with nodes := t.nodes ++ [newRoot] }
  let t := match getN t nodeId with
    | some a => setN t nodeId { a with parent := some rootId }
    | none => t
  let t := match getN t newId with
    | some b => setN t newId { b with parent := some rootId }
    | none => t
  { t with root := some rootId }

/-- A pending call in the mutually recursive upward chain of
BTree.insertIntoParent and BTree.splitInternal. -/
inductive UpCall
  | intoParent (parentId : Nat) (key : Option Bytes) (rightId : Nat)
  | splitNode (nodeId : Nat)

/-- The mutually recursive pair BTree.insertIntoParent and
BTree.splitInternal, merged on one fuel argument that bounds the upward
recursion of the Go call chain.
Case intoParent: link the right child, shift, insert the separator and
the child pointer, then split the parent if it is full.
Case splitNode: move the upper keys and children to a fresh internal
node, move the last child to slot MaxKeys/2 of the new node, push the
middle key up, creating a new root when needed. -/
def upChain : Nat → Tree → UpCall → Tree
  | 0, t, _ => t
  | fuel + 1, t, .intoParent parentId key rightId =>
    let t := match getN t rightId with
      | some rc => setN t rightId { rc with parent := some parentId }
      | none => t
    match getN t parentId with
    | none => t
    | some parent =>
      let parent := insertedParent parent key rightId
      let t := setN t parentId parent
      if parent.isFull then upChain fuel t (.splitNode parentId) else t
  | fuel + 1, t, .splitNode nodeId =>
    let newId := t.nodes.length
    let t := { t with nodes := t.nodes ++ [newInternalNode] }
    let t := splitInternalMove t nodeId newId (MaxKeys / 2 + 1)
    match getN t nodeId, getN t newId with
    | some nd, some nw =>
      let lastChild := nd.children.getD MaxKeys none
      let nw2 := { nw with children := nw.children.set (MaxKeys / 2) lastChild,
                           numKeys := MaxKeys - MaxKeys / 2 - 1 }
      let middleKey := nd.keys.getD (MaxKeys / 2) none
      let nd2 := { nd with children := nd.children.set MaxKeys none,
                           keys := nd.keys.set (MaxKeys / 2) none,
                           numKeys := MaxKeys / 2 }
      let t := setN (setN t nodeId nd2) newId nw2
      let t := match lastChild with
        | some cid =>
          match getN t cid with
          | some c => setN t cid { c with parent := some newId }
          | none => t
        | none => t
      match nd2.parent with
      | none => newRootStep t nodeId newId middleKey
      | some pId => upChain fuel t (.intoParent pId middleKey newId)
    | _, _ => t

/-- BTree.insertIntoParent through the merged chain. -/
def insertIntoParentF (fuel : Nat) (t : Tree) (parentId : Nat) (key : Option Bytes)
    (rightId : Nat) : Tree :=
  upChain fuel t (.intoParent parentId key rightId)

/-- The allKeys merge buffer of BTree.splitAndInsert: the old keys with
the new key placed at the insertion index, in a MaxKeys+1 slot buffer
built by the two copy calls and the direct assignment of the source. -/
def splitBufK (leaf : NodeRec) (key : Bytes) (index : Nat) : List (Option Bytes) :=
  goCopy ((goCopy (List.replicate (MaxKeys + 1) none) 0 (leaf.keys.take index)).set index (some key))
    (index + 1) ((leaf.keys.drop index).take (leaf.numKeys - index))

/-- The allValues merge buffer of BTree.splitAndInsert. -/
def splitBufV (leaf : NodeRec) (val : Bytes) (index : Nat) : List (Option Bytes) :=
  goCopy ((goCopy (List.replicate (MaxKeys + 1) none) 0 (leaf.values.take index)).set index (some val))
    (index + 1) ((leaf.values.drop index).take (leaf.numKeys - index))

/-- The left leaf produced by BTree.splitAndInsert: slots below the cut
point receive the head of the merge buffer, the slots from the cut
point on are cleared, the count becomes the cut point, and the chain
link points at the new right leaf. -/
def splitLeftRec (leaf : NodeRec) (key val : Bytes) (index : Nat) (newId : Nat) : NodeRec :=
  { leaf with
    keys := goCopy (goCopy leaf.keys 0 ((splitBufK leaf key index).take ((MaxKeys + 1) / 2)))
      ((MaxKeys + 1) / 2) (List.replicate (MaxKeys - (MaxKeys + 1) / 2) none),
    values := goCopy (goCopy leaf.values 0 ((splitBufV leaf val index).take ((MaxKeys + 1) / 2)))
      ((MaxKeys + 1) / 2) (List.replicate (MaxKeys - (MaxKeys + 1) / 2) none),
    numKeys := (MaxKeys + 1) / 2,
    next := some newId }

/-- The right leaf produced by BTree.splitAndInsert: a fresh leaf whose
slots receive the tail of the merge buffer from the cut point on, and
whose chain link takes over the old link of the split leaf. -/
def splitRightRec (leaf : NodeRec) (key val : Bytes) (index : Nat) : NodeRec :=
  { newLeafNode with
    keys := goCopy newLeafNode.keys 0 ((splitBufK leaf key index).drop ((MaxKeys + 1) / 2)),
    values := goCopy newLeafNode.values 0 ((splitBufV leaf val index).drop ((MaxKeys + 1) / 2)),
    numKeys := MaxKeys + 1 - (MaxKeys + 1) / 2,
    next := leaf.next }

/-- BTree.splitAndInsert: merge the full leaf and the new entry into a
MaxKeys+1 slot buffer, cut at (MaxKeys+1)/2, relink the leaf chain and
push the first key of the right leaf into the parent. -/
def splitAndInsert (t : Tree) (leafId : Nat) (key val : Bytes) (index : Nat) : Tree :=
  match getN t leafId with
  | none => t
  | some leaf =>
    let newId := t.nodes.length
    let newLeaf := splitRightRec leaf key val index
    let leaf2 := splitLeftRec leaf key val index newId
    let t := setN t leafId leaf2
    let t := { t with nodes := t.nodes ++ [newLeaf] }
    match leaf.parent with
    | none =>
      let rootId := t.nodes.length
      let newRoot := { newInternalNode with
          keys := newInternalNode.keys.set 0 (newLeaf.keys.getD 0 none),
          children := (newInternalNode.children.set 0 (some leafId)).set 1 (some newId),
          numKeys := 1 }
      let t := { t with nodes := t.nodes ++ [newRoot] }
      let t := match getN t leafId with
        | some a => setN t leafId { a with parent := some rootId }
        | none => t
      let t := match getN t newId with
        | some b => setN t newId { b with parent := some rootId }
        | none => t
      { t with root := some rootId }
    | some pId => insertIntoParentF (t.nodes.length + 1) t pId (newLeaf.keys.getD 0 none) newId

/-- BTree.insertIntoLeaf: split first at capacity, otherwise shift right
and insert at the search index. -/
def insertIntoLeafOp (t : Tree) (leafId : Nat) (key val : Bytes) : Tree :=
  match getN t leafId with
  | none => t
  | some leaf =>
    let index := findKeyIndex (some leaf) key
    if leaf.numKeys = MaxKeys then splitAndInsert t leafId key val index
    else if index > MaxKeys then t
    else
      let leaf := shiftRightFrom leaf index leaf.numKeys
      if index < leaf.keys.length ∧ index < leaf.values.length then
        setN t leafId { leaf with keys := leaf.keys.set index (some key),
                                  values := leaf.values.set index (some val),
                                  numKeys := leaf.numKeys + 1 }
      else setN t leafId leaf

/-- BTree.Set. -/
def setOp (t : Tree) (key val : Bytes) : Tree :=
  let t := match t.root with
    | none => { t with nodes := t.nodes ++ [newLeafNode], root := some t.nodes.length }
    | some _ => t
  match t.root with
  | none => t
  | some r =>
    let leafId := findLeafLoop t key r (t.nodes.length + 1)
    match getN t leafId with
    | none => t
    | some leaf =>
      let index := findKeyIndex (some leaf) key
      if index < leaf.numKeys ∧ bytesEqual (goBytes (keyAt leaf index)) key = true then
        setN t leafId { leaf with values := leaf.values.set index (some val) }
      else
        let t := insertIntoLeafOp t leafId key val
        { t with size := t.size + 1 }

/-- The ascending shift loop of BTree.deleteFromLeaf:
for i := index; i < leaf.NumKeys-1; i++ .  The last argument counts the
remaining iterations (numKeys - 1 - i). -/
def shiftLeftGo : Nat → NodeRec → Nat → NodeRec
  | _, n, 0 => n
  | i, n, r + 1 =>
    if i < n.numKeys - 1 then
      shiftLeftGo (i + 1) { n with keys := n.keys.set i (n.keys.getD (i + 1) none),
                                   values := n.values.set i (n.values.getD (i + 1) none) } r
    else n

/-- The shift loop of BTree.deleteFromLeaf starting at the removal
index. -/
def shiftLeftFrom (n : NodeRec) (i : Nat) : NodeRec := shiftLeftGo i n (n.numKeys - 1 - i)

/-- BTree.handleUnderflow: the body in btree.go is empty, so the call
has no effect on the tree. -/
def handleUnderflow (t : Tree) (nodeId : Nat) : Tree := t

/-- BTree.deleteFromLeaf: shift left over the removed entry, decrement
the count, then run the (empty) underflow handler when underfull. -/
def deleteFromLeafOp (t : Tree) (leafId : Nat) (index : Nat) : Tree :=
  match getN t leafId with
  | none => t
  | some leaf =>
    let leaf := shiftLeftFrom leaf index
    let leaf := { leaf with numKeys := leaf.numKeys - 1 }
    let t := setN t leafId leaf
    if leaf.isUnderflow = true ∧ leaf.parent ≠ none then handleUnderflow t leafId else t

/-- BTree.Delete. -/
def deleteOp (t : Tree) (key : Bytes) : Tree :=
  match t.root with
  | none => t
  | some r =>
    let leafId := findLeafLoop t key r (t.nodes.length + 1)
    match getN t leafId with
    | none => t
    | some leaf =>
      let index := findKeyIndex (some leaf) key
      if index < leaf.numKeys ∧ bytesEqual (goBytes (keyAt leaf index)) key = true then
        let t := deleteFromLeafOp t leafId index
        { t with size := t.size - 1 }
      else t

/-- BTree.Size. -/
def sizeOp (t : Tree) : Int := t.size

/-- btree.BTreeIterator. -/
structure IterState where
  current : Option Nat
  index : Nat
  deriving DecidableEq, Repr

/-- The skip loop of BTree.FindLarger: advance past keys not above the
argument.  The last argument counts the remaining iterations
(numKeys - i). -/
def skipNotGreaterGo (leaf : NodeRec) (key : Bytes) : Nat → Nat → Nat
  | i, 0 => i
  | i, r + 1 =>
    if i < leaf.numKeys ∧ bytesCompare (goBytes (keyAt leaf i)) key ≠ .gt then
      skipNotGreaterGo leaf key (i + 1) r
    else i

/-- The skip loop of BTree.FindLarger starting at the search index. -/
def skipNotGreater (leaf : NodeRec) (key : Bytes) (i : Nat) : Nat :=
  skipNotGreaterGo leaf key i (leaf.numKeys - i)

/-- BTree.FindLarger. -/
def findLargerOp (t : Tree) (key : Bytes) : IterState :=
  match t.root with
  | none => { current := none, index := 0 }
  | some r =>
    let leafId := findLeafLoop t key r (t.nodes.length + 1)
    match getN t leafId with
    | none => { current := none, index := 0 }
    | some leaf =>
      let index := findKeyIndex (some leaf) key
      let index := skipNotGreater leaf key index
      if index ≥ leaf.numKeys then { current := leaf.next, index := 0 }
      else { current := some leafId, index := index }

/-- BTreeIterator.Next: emit the current pair, advance, and hop the leaf
chain at the end of a leaf. -/
def nextIter (t : Tree) (it : IterState) : (Option Bytes × Option Bytes) × IterState :=
  match it.current with
  | none => ((none, none), it)
  | some cid =>
    match getN t cid with
    | none => ((none, none), it)
    | some cur =>
      if it.index ≥ cur.numKeys then ((none, none), it)
      else
        let key := keyAt cur it.index
        let val := valueAt cur it.index
        let index := it.index + 1
        let it2 := if index ≥ cur.numKeys ∧ cur.next ≠ none then
            { current := cur.next, index := 0 }
          else { current := it.current, index := index }
        ((key, val), it2)

/-- BTreeIterator.ContainsNext. -/
def containsNext (t : Tree) (it : IterState) : Bool :=
  match it.current with
  | none => false
  | some cid =>
    match getN t cid with
    | none => false
    | some cur =>
      if it.index < cur.numKeys then true
      else match cur.next with
        | none => false
        | some nid =>
          match getN t nid with
          | none => false
          | some nxt => decide (0 < nxt.numKeys)

/-! Node codec, from the storage package. -/

/-- Little endian four byte encoding, as binary.LittleEndian.PutUint32. -/
def le32 (n : Nat) : List Nat :=
  [n % 256, n / 256 % 256, n / 65536 % 256, n / 16777216 % 256]

/-- binary.LittleEndian.Uint32 on the first four bytes of a buffer. -/
def readLE32 (l : List Nat) : Nat :=
  l.getD 0 0 + 256 * l.getD 1 0 + 65536 * l.getD 2 0 + 16777216 * l.getD 3 0

/-- The per key loop of SerializeNode: append each length prefixed key,
and for leaves the interleaved value with nil normalized to empty.  The
last argument counts the remaining iterations (numKeys - i). -/
def serializeEntriesGo (r : NodeRec) : Nat → List Nat → Nat → Except String (List Nat)
  | _, buf, 0 => .ok buf
  | i, buf, rem + 1 =>
    if i < r.numKeys then
      match keyAt r i with
      | none => .error ("nil key at index")
      | some key =>
        let buf := buf ++ le32 key.length ++ key
        let buf := if r.isLeaf then
            let v := goBytes (valueAt r i)
            buf ++ le32 v.length ++ v
          else buf
        serializeEntriesGo r (i + 1) buf rem
    else .ok buf

/-- The per key loop of SerializeNode from the start of the node. -/
def serializeEntries (r : NodeRec) (i : Nat) (buf : List Nat) : Except String (List Nat) :=
  serializeEntriesGo r i buf (r.numKeys - i)

/-- The placeholder trailer loop of SerializeNode: n zero page ids. -/
def zeros32 : Nat → List Nat
  | 0 => []
  | n + 1 => le32 0 ++ zeros32 n

/-- storage SerializeNode: type byte, key count, entries, then the
placeholder trailer (child page ids or next page id, all written 0). -/
def serializeNode (node : Option NodeRec) : Except String (List Nat) :=
  match node with
  | none => .error ("cannot serialize nil node")
  | some r =>
    let buf := [if r.isLeaf then 1 else 0] ++ le32 r.numKeys
    match serializeEntries r 0 buf with
    | .error e => .error e
    | .ok buf2 =>
      if r.isLeaf then .ok (buf2 ++ le32 0)
      else .ok (buf2 ++ zeros32 (r.numKeys + 1))

/-- Outcome of DeserializeNode: a node, a Go error value, or a Go
runtime fault from an out of bounds slice write. -/
inductive DeserResult
  | ok (n : NodeRec)
  | err (msg : String)
  | fault
  deriving DecidableEq, Repr

/-- The per key loop of DeserializeNode: bounds checked reads of each
length prefixed key (and value for leaves), with the unguarded slice
writes node.Keys i and node.Values i, which fault when the declared key
count exceeds the slice capacity MaxKeys. -/
def deserLoopGo (data : List Nat) (numKeys : Nat) : Nat → Nat → NodeRec → Nat → DeserResult
  | _, _, node, 0 => .ok node
  | offset, i, node, rem + 1 =>
    if i < numKeys then
      if offset + 4 > data.length then .err ("insufficient data for key length")
      else
        let keyLen := readLE32 (data.drop offset)
        let off2 := offset + 4
        if off2 + keyLen > data.length then .err ("insufficient data for key")
        else
          let key := (data.drop off2).take keyLen
          let off3 := off2 + keyLen
          if i < node.keys.length then
            let node2 := { node with keys := node.keys.set i (some key) }
            if node2.isLeaf then
              if off3 + 4 > data.length then .err ("insufficient data for value length")
              else
                let valLen := readLE32 (data.drop off3)
                let off4 := off3 + 4
                if off4 + valLen > data.length then .err ("insufficient data for value")
                else
                  let val := (data.drop off4).take valLen
                  let off5 := off4 + valLen
                  if i < node2.values.length then
                    deserLoopGo data numKeys off5 (i + 1)
                      { node2 with values := node2.values.set i (some val) } rem
                  else .fault
            else deserLoopGo data numKeys off3 (i + 1) node2 rem
          else .fault
    else .ok node

/-- The per key loop of DeserializeNode starting after the five byte
prefix. -/
def deserLoop (data : List Nat) (offset : Nat) (node : NodeRec) (i numKeys : Nat) : DeserResult :=
  deserLoopGo data numKeys offset i node (numKeys - i)

/-- storage DeserializeNode: check the fixed five byte prefix, read the
type and key count, run the entry loop and set the final key count.
The trailer is never read. -/
def deserializeNode (data : List Nat) : DeserResult :=
  if data.length < 5 then .err ("data too short for node deserialization")
  else
    let nodeType := data.getD 0 0
    let numKeys := readLE32 (data.drop 1)
    let node := if nodeType == 1 then newLeafNode else newInternalNode
    match deserLoop data 5 node 0 numKeys with
    | .ok n => .ok { n with numKeys := numKeys }
    | r => r

/-! Page and page manager, from the storage package. -/

def PageSize : Nat := 4096
def PageHeaderSize : Nat := 16
def InvalidPageID : Nat := 4294967295
def FreePageType : Nat := 0
def BTreeLeafType : Nat := 1
def BTreeInternalType : Nat := 2
def MetaPageType : Nat := 3

/-- storage.Page: id, header fields and the fixed payload array. -/
structure PageRec where
  id : Nat
  pageType : Nat
  reserved : Nat
  dataLength : Nat
  nextPage : Nat
  prevPage : Nat
  checksum : Nat
  data : List Nat
  deriving DecidableEq, Repr

/-- storage.NewPage: zeroed payload, invalid chain links. -/
def newPage (id ty : Nat) : PageRec :=
  { id := id, pageType := ty, reserved := 0, dataLength := 0,
    nextPage := InvalidPageID, prevPage := InvalidPageID, checksum := 0,
    data := List.replicate (PageSize - PageHeaderSize) 0 }

/-- Little endian two byte encoding, as binary.LittleEndian.PutUint16. -/
def le16 (n : Nat) : List Nat := [n % 256, n / 256 % 256]

/-- Page.Serialize: 16 byte header then the payload array. -/
def pageSerialize (p : PageRec) : List Nat :=
  [p.pageType % 256, p.reserved % 256] ++ le16 p.dataLength ++ le32 p.nextPage ++
    le32 p.prevPage ++ le32 p.checksum ++
    (p.data ++ List.replicate (PageSize - PageHeaderSize) 0).take (PageSize - PageHeaderSize)

/-- binary.LittleEndian.Uint16 on the first two bytes of a buffer. -/
def readLE16 (l : List Nat) : Nat := l.getD 0 0 + 256 * l.getD 1 0

/-- Page.Deserialize into a page with the given id, as readPageLocked
builds it; fails unless the buffer is exactly PageSize bytes. -/
def pageDeserialize (id : Nat) (data : List Nat) : Except String PageRec :=
  if data.length ≠ PageSize then .error ("invalid page size")
  else .ok { id := id, pageType := data.getD 0 0, reserved := data.getD 1 0,
             dataLength := readLE16 (data.drop 2), nextPage := readLE32 (data.drop 4),
             prevPage := readLE32 (data.drop 8), checksum := readLE32 (data.drop 12),
             data := (data.drop PageHeaderSize).take (PageSize - PageHeaderSize) }

/-- Page.SetData: refuse oversized payloads, copy and zero the rest. -/
def pageSetData (p : PageRec) (d : List Nat) : Except String PageRec :=
  if d.length > PageSize - PageHeaderSize then .error ("data too large for page")
  else .ok { p with
    data := (d ++ List.replicate (PageSize - PageHeaderSize - d.length) 0).take (PageSize - PageHeaderSize),
    dataLength := d.length % 65536 }

/-- Page.GetData: the first DataLength payload bytes. -/
def pageGetData (p : PageRec) : List Nat := p.data.take p.dataLength

/-- Page.updateChecksum: wrapping uint32 sum of the live payload bytes. -/
def updateChecksum (p : PageRec) : PageRec :=
  { p with checksum := (p.data.take p.dataLength).foldl (fun s b => (s + b) % 4294967296) 0 }

/-- PageManager state: next fresh id, free list, and the backing file as
a map from page id to the raw bytes stored at offset id times PageSize. -/
structure PMState where
  nextPage : Nat
  freeList : List Nat
  disk : List (Nat × List Nat)
  deriving DecidableEq, Repr

/-- Association list lookup (map read). -/
def assocGet {α : Type} : List (Nat × α) → Nat → Option α
  | [], _ => none
  | (k2, v) :: rest, k => if k2 = k then some v else assocGet rest k

/-- Association list update or insert (map write). -/
def assocSet {α : Type} : List (Nat × α) → Nat → α → List (Nat × α)
  | [], k, v => [(k, v)]
  | (k2, w) :: rest, k, v =>
    if k2 = k then (k2, v) :: rest else (k2, w) :: assocSet rest k v

/-- PageManager.writePageLocked: refuse the invalid id, recompute the
checksum, store the serialized page, and sync (the model file is
already durable). -/
def writePageLocked (pm : PMState) (p : PageRec) : Except String PMState :=
  if p.id = InvalidPageID then .error ("invalid page ID for write")
  else
    let p2 := updateChecksum p
    .ok { pm with disk := assocSet pm.disk p2.id (pageSerialize p2) }

/-- PageManager.readPageLocked: refuse the invalid id, read the bytes at
the page offset and deserialize them. -/
def readPageLocked (pm : PMState) (pageID : Nat) : Except String PageRec :=
  if pageID = InvalidPageID then .error ("invalid page ID for read")
  else
    match assocGet pm.disk pageID with
    | none => .error ("failed to read page")
    | some buf => pageDeserialize pageID buf

/-- PageManager.AllocatePage: pop the most recently freed id from the
free list, else issue the next fresh id (uint32 increment), then write
a zeroed page of the requested type.  Returns the id together with the
updated state and the write error if any, as the Go function returns
the pair (PageID, error). -/
def allocatePage (pm : PMState) (ty : Nat) : Nat × PMState × Option String :=
  let step :=
    match pm.freeList.getLast? with
    | some pid => (pid, { pm with freeList := pm.freeList.dropLast })
    | none => (pm.nextPage, { pm with nextPage := (pm.nextPage + 1) % 4294967296 })
  match writePageLocked step.2 (newPage step.1 ty) with
  | .ok pm2 => (step.1, pm2, none)
  | .error e => (step.1, step.2, some e)

/-- PageManager.DeallocatePage: overwrite the page as Free and push the
id on the free list. -/
def deallocatePage (pm : PMState) (pageID : Nat) : Except String PMState :=
  match writePageLocked pm (newPage pageID FreePageType) with
  | .error e => .error e
  | .ok pm2 => .ok { pm2 with freeList := pm2.freeList ++ [pageID] }

/-- The magic metadata payload SIMPLEDB V1 written to page 0. -/
def magicBytes : Bytes := [83, 73, 77, 80, 76, 69, 68, 66, 95, 86, 49]

/-- NewPageManager on a fresh empty file: nextPage starts at 1 and the
metadata page 0 is written with the magic payload. -/
def newPageManager : Except String PMState :=
  let pm : PMState := { nextPage := 1, freeList := [], disk := [] }
  match pageSetData (newPage 0 MetaPageType) magicBytes with
  | .error e => .error e
  | .ok metaPage =>
    match writePageLocked pm metaPage with
    | .error e => .error e
    | .ok pm2 => .ok pm2

/-! Disk backed B+Tree, from the storage package. -/

/-- storage.DiskBTree: page manager, root page id and the page id keyed
node cache.  Node identity is its page id: the Go side recovers the page
id of a node object through the nodeToPageID side table, which inverts
the cache. -/
structure DiskBTree where
  pm : PMState
  rootID : Nat
  cache : List (Nat × NodeRec)
  deriving DecidableEq, Repr

/-- DiskBTree.loadNode: cache hit, else page read plus node decode,
then cache fill. -/
def dLoadNode (s : DiskBTree) (pageID : Nat) : Option (NodeRec × DiskBTree) :=
  match assocGet s.cache pageID with
  | some n => some (n, s)
  | none =>
    match readPageLocked s.pm pageID with
    | .error _ => none
    | .ok page =>
      match deserializeNode (pageGetData page) with
      | .ok n => some (n, { s with cache := assocSet s.cache pageID n })
      | _ => none

/-- DiskBTree.saveNode: encode, place in a fresh page of the matching
type, write it through the page manager, and update the cache. -/
def dSaveNode (s : DiskBTree) (pageID : Nat) (n : NodeRec) : Except String DiskBTree :=
  match serializeNode (some n) with
  | .error e => .error e
  | .ok data =>
    let ty := if n.isLeaf then BTreeLeafType else BTreeInternalType
    match pageSetData (newPage pageID ty) data with
    | .error e => .error e
    | .ok page =>
      match writePageLocked s.pm page with
      | .error e => .error e
      | .ok pm2 => .ok { s with pm := pm2, cache := assocSet s.cache pageID n }

/-- DiskBTree.saveNodeFromCache: write back through the recovered page
id, skipping the invalid id; the returned error of saveNode is dropped
by every caller. -/
def dSaveNodeFromCache (s : DiskBTree) (pageID : Nat) (n : NodeRec) : DiskBTree :=
  if pageID = InvalidPageID then s
  else
    match dSaveNode s pageID n with
    | .ok s2 => s2
    | .error _ => s

/-- storage.NewDiskBTree: allocate the root page and save a fresh leaf
root there. -/
def newDiskBTree (pm : PMState) : Option DiskBTree :=
  match allocatePage pm BTreeLeafType with
  | (_, _, some _) => none
  | (rootID, pm2, none) =>
    match dSaveNode { pm := pm2, rootID := 0, cache := [] } rootID newLeafNode with
    | .error _ => none
    | .ok s2 => some { s2 with rootID := rootID }

/-- DiskBTree.findLeaf: the descent loop body breaks unconditionally
before following any child pointer, so the function returns its
argument node unchanged. -/
def dFindLeaf (node : NodeRec) (key : Bytes) : NodeRec := node

/-- DiskBTree.findKeyIndex: the source duplicates the in memory
findKeyIndex verbatim. -/
def dFindKeyIndex (n : Option NodeRec) (key : Bytes) : Nat := findKeyIndex n key

/-- The unguarded descending shift loop of DiskBTree.insertIntoLeaf:
for i := leaf.NumKeys; i > index; i-- . -/
def dShiftRight (n : NodeRec) (index : Nat) : Nat → NodeRec
  | 0 => n
  | i + 1 =>
    if i + 1 > index then
      dShiftRight { n with keys := n.keys.set (i + 1) (n.keys.getD i none),
                           values := n.values.set (i + 1) (n.values.getD i none) } index i
    else n

/-- DiskBTree.insertIntoLeaf: inserts only while below capacity and
saves the leaf; no split is implemented, a full leaf silently drops the
insertion. -/
def dInsertIntoLeaf (s : DiskBTree) (pageID : Nat) (leaf : NodeRec) (key val : Bytes)
    (index : Nat) : DiskBTree :=
  if leaf.numKeys < MaxKeys then
    let leaf2 := dShiftRight leaf index leaf.numKeys
    let leaf3 := { leaf2 with keys := leaf2.keys.set index (some key),
                              values := leaf2.values.set index (some val),
                              numKeys := leaf2.numKeys + 1 }
    dSaveNodeFromCache s pageID leaf3
  else s

/-- DiskBTree.Set. -/
def dSet (s : DiskBTree) (key val : Bytes) : DiskBTree :=
  match dLoadNode s s.rootID with
  | none => s
  | some (root, s1) =>
    let leaf := dFindLeaf root key
    let index := dFindKeyIndex (some leaf) key
    if index < leaf.numKeys ∧ bytesEqual (goBytes (keyAt leaf index)) key = true then
      dSaveNodeFromCache s1 s1.rootID { leaf with values := leaf.values.set index (some val) }
    else dInsertIntoLeaf s1 s1.rootID leaf key val index

/-- DiskBTree.Get. -/
def dGet (s : DiskBTree) (key : Bytes) : Option Bytes × Bool :=
  match dLoadNode s s.rootID with
  | none => (none, false)
  | some (root, _) =>
    let leaf := dFindLeaf root key
    let index := dFindKeyIndex (some leaf) key
    if index < leaf.numKeys ∧ bytesEqual (goBytes (keyAt leaf index)) key = true then
      (valueAt leaf index, true)
    else (none, false)

/-- DiskBTree.deleteFromLeaf: guarded shift left, decrement, save; the
shift loop is the same as the in memory deleteFromLeaf loop. -/
def dDeleteFromLeaf (s : DiskBTree) (pageID : Nat) (leaf : NodeRec) (index : Nat) : DiskBTree :=
  if index < leaf.numKeys then
    let leaf2 := shiftLeftFrom leaf index
    let leaf3 := { leaf2 with numKeys := leaf2.numKeys - 1 }
    dSaveNodeFromCache s pageID leaf3
  else s

/-- DiskBTree.Delete. -/
def dDelete (s : DiskBTree) (key : Bytes) : DiskBTree :=
  match dLoadNode s s.rootID with
  | none => s
  | some (root, s1) =>
    let leaf := dFindLeaf root key
    let index := dFindKeyIndex (some leaf) key
    if index < leaf.numKeys ∧ bytesEqual (goBytes (keyAt leaf index)) key = true then
      dDeleteFromLeaf s1 s1.rootID leaf index
    else s1

/-! Concrete scenario states used by the claims. -/

/-- The byte string key01. -/
def key01 : Bytes := [107, 101, 121, 48, 49]
def key02 : Bytes := [107, 101, 121, 48, 50]
def key03 : Bytes := [107, 101, 121, 48, 51]
def key04 : Bytes := [107, 101, 121, 48, 52]
def key05 : Bytes := [107, 101, 121, 48, 53]
def key06 : Bytes := [107, 101, 121, 48, 54]
def key07 : Bytes := [107, 101, 121, 48, 55]
def key08 : Bytes := [107, 101, 121, 48, 56]
def key09 : Bytes := [107, 101, 121, 48, 57]
def key10 : Bytes := [107, 101, 121, 49, 48]
def key11 : Bytes := [107, 101, 121, 49, 49]

/-- The byte string val01. -/
def val01 : Bytes := [118, 97, 108, 48, 49]
def val02 : Bytes := [118, 97, 108, 48, 50]
def val03 : Bytes := [118, 97, 108, 48, 51]
def val04 : Bytes := [118, 97, 108, 48, 52]
def val05 : Bytes := [118, 97, 108, 48, 53]
def val06 : Bytes := [118, 97, 108, 48, 54]
def val07 : Bytes := [118, 97, 108, 48, 55]
def val08 : Bytes := [118, 97, 108, 48, 56]
def val09 : Bytes := [118, 97, 108, 48, 57]
def val10 : Bytes := [118, 97, 108, 49, 48]
def val11 : Bytes := [118, 97, 108, 49, 49]

/-- The in-memory tree after inserting key01 .. key04 in order: a
single root leaf holding MaxKeys keys. -/
def t4 : Tree :=
  setOp (setOp (setOp (setOp newTree key01 val01) key02 val02) key03 val03) key04 val04

/-- The in-memory tree after inserting key01 .. key05 in order; the
fifth insert splits the full root leaf. -/
def t5 : Tree := setOp t4 key05 val05

/-- The in-memory tree after inserting key01 .. key06 in order. -/
def t6 : Tree := setOp t5 key06 val06

/-- The in-memory tree after inserting key01 .. key10 in order. -/
def t10 : Tree :=
  setOp (setOp (setOp (setOp t6 key07 val07) key08 val08) key09 val09) key10 val10

/-- The in-memory tree after inserting key01 .. key11 in order; the
eleventh insert triggers the internal root split. -/
def t11 : Tree := setOp t10 key11 val11

/-- The root leaf record of t4: the four keys and values in order,
exactly as getN t4 0 evaluates. -/
def rec4 : NodeRec :=
  { ty := .leaf,
    keys := [some key01, some key02, some key03, some key04],
    values := [some val01, some val02, some val03, some val04],
    children := [], next := none, parent := none, numKeys := 4 }

/-- A page manager state with a non-empty free list, for the allocator
witness. -/
def pmA : PMState := { nextPage := 9, freeList := [3, 7], disk := [] }

/-- A page manager state with an empty free list, for the allocator
witness. -/
def pmB : PMState := { nextPage := 9, freeList := [], disk := [] }

/-- The state after deallocating page 5 on pmB. -/
def pmD : PMState :=
  match deallocatePage pmB 5 with
  | .ok x => x
  | .error _ => pmB

/-- A fallback disk tree value for the impossible failure branches of
the concrete construction below. -/
def dbtFallback : DiskBTree :=
  { pm := { nextPage := 0, freeList := [], disk := [] }, rootID := 0, cache := [] }

/-- A fresh DiskBTree over a fresh page manager, as the tests build it. -/
def dbt1 : DiskBTree :=
  match newPageManager with
  | .ok pm => (newDiskBTree pm).getD dbtFallback
  | .error _ => dbtFallback

/-- The disk tree after setting key01 .. key05 in order. -/
def d5 : DiskBTree :=
  dSet (dSet (dSet (dSet (dSet dbt1 key01 val01) key02 val02) key03 val03) key04 val04)
    key05 val05

/-- The node the Delete descent will touch: the node findLeaf returns,
when the tree has a root. -/
def deleteTarget (t : Tree) (key : Bytes) : Option Nat :=
  t.root.map (fun r => findLeafLoop t key r (t.nodes.length + 1))

/-- The known error messages of DeserializeNode: the short prefix case
and the four truncation cases. -/
def knownDeserErrs : List String :=
  ["data too short for node deserialization", "insufficient data for key length",
   "insufficient data for key", "insufficient data for value length",
   "insufficient data for value"]

/-- A deserialization outcome that is a node or a known error, never a
runtime fault. -/
def resultTotal : DeserResult → Prop
  | .ok _ => True
  | .err m => m ∈ knownDeserErrs
  | .fault => False

/-- The input that makes DeserializeNode fault: an internal node header
declaring five keys followed by five empty keys. -/
def c7input : List Nat := [0] ++ le32 5 ++ List.replicate 20 0

/-- The byte the serializer writes for the node type. -/
def nodeTypeByte (r : NodeRec) : Nat := if r.isLeaf then 1 else 0

/-- The trailer the serializer writes after the entries. -/
def serTrailer (r : NodeRec) : List Nat :=
  if r.isLeaf then le32 0 else zeros32 (r.numKeys + 1)

/-- One encoded entry: length prefixed key, and for leaves the length
prefixed value with nil normalized to empty. -/
def encodeEntry (r : NodeRec) (i : Nat) : List Nat :=
  le32 (goBytes (keyAt r i)).length ++ goBytes (keyAt r i) ++
    (if r.isLeaf then le32 (goBytes (valueAt r i)).length ++ goBytes (valueAt r i) else [])

/-- The encoded entries from index i, rem entries long. -/
def encodeFromGo (r : NodeRec) : Nat → Nat → List Nat
  | _, 0 => []
  | i, rem + 1 => encodeEntry r i ++ encodeFromGo r (i + 1) rem

/-- The node the decode loop builds from index i on: each slot receives
the encoded key and, for leaves, the encoded value. -/
def fillFromGo (r : NodeRec) : Nat → NodeRec → Nat → NodeRec
  | _, node, 0 => node
  | i, node, rem + 1 =>
    let node2 := { node with keys := node.keys.set i (some (goBytes (keyAt r i))) }
    let node3 := if node2.isLeaf then
        { node2 with values := node2.values.set i (some (goBytes (valueAt r i))) }
      else node2
    fillFromGo r (i + 1) node3 rem



/-- The serializer output for rec4 (well defined since rec4 has non nil
keys). -/
def c9buf : List Nat :=
  match serializeNode (some rec4) with
  | .ok b => b
  | .error _ => []

/-- The node decoded back from c9buf. -/
def c9node : NodeRec :=
  match deserializeNode c9buf with
  | .ok n => n
  | _ => newLeafNode

/-- A five byte buffer declaring a leaf with one key and no further
bytes, for the decoder totality witness. -/
def c7small : List Nat := [1, 1, 0, 0, 0]

/-- The arena index L is in range and no record's parent link points at
it: a leaf of any well formed tree satisfies this, since parent links
only ever name internal nodes. -/
def noChildOf (t : Tree) (L : Nat) : Prop :=
  L < t.nodes.length ∧ ∀ n ∈ t.nodes, n.parent ≠ some L

/-- Agreement of two node records on every field except the parent
link. -/
def sameCore (a b : NodeRec) : Prop :=
  a.ty = b.ty ∧ a.keys = b.keys ∧ a.values = b.values ∧
  a.children = b.children ∧ a.next = b.next ∧ a.numKeys = b.numKeys

/-- The right leaf record of t6: the full non root leaf that the key07
insert would split, exactly as getN t6 1 evaluates. -/
def rec6 : NodeRec :=
  match getN t6 1 with
  | some a => a
  | none => newLeafNode

/-! Claim theorems and supporting facts. -/

/-- Association list lookup after an update at the same id. -/
theorem assocGet_set_self {α : Type} (l : List (Nat × α)) (k : Nat) (v : α) :
    assocGet (assocSet l k v) k = some v := by
  induction l with
  | nil => simp [assocSet, assocGet]
  | cons p rest ih =>
    obtain ⟨k2, w⟩ := p
    by_cases h : k2 = k
    · simp [assocSet, assocGet, h]
    · simp [assocSet, assocGet, h, ih]

/-- Full characterization of allocatePage. -/
theorem allocatePage_spec (pm : PMState) (ty : Nat) :
    allocatePage pm ty =
      (match pm.freeList.getLast? with
       | some p =>
         if p = InvalidPageID then
           (p, { pm with freeList := pm.freeList.dropLast }, some ("invalid page ID for write"))
         else
           (p, { pm with freeList := pm.freeList.dropLast,
                         disk := assocSet pm.disk p (pageSerialize (updateChecksum (newPage p ty))) },
             none)
       | none =>
         if pm.nextPage = InvalidPageID then
           (pm.nextPage, { pm with nextPage := (pm.nextPage + 1) % 4294967296 },
             some ("invalid page ID for write"))
         else
           (pm.nextPage,
             { pm with
               nextPage := (pm.nextPage + 1) % 4294967296,
               disk := assocSet pm.disk pm.nextPage
                 (pageSerialize (updateChecksum (newPage pm.nextPage ty))) },
             none)) := by
  unfold allocatePage writePageLocked
  cases hl : pm.freeList.getLast? with
  | some p =>
    by_cases hi : p = InvalidPageID
    · simp [newPage, hi]
    · simp [newPage, hi, updateChecksum]
  | none =>
    by_cases hi : pm.nextPage = InvalidPageID
    · simp [newPage, hi]
    · simp [newPage, hi, updateChecksum]

/-- Characterization of deallocatePage. -/
theorem deallocatePage_spec (pm : PMState) (pid : Nat) :
    deallocatePage pm pid =
      (if pid = InvalidPageID then .error ("invalid page ID for write")
       else .ok { pm with
                  freeList := pm.freeList ++ [pid],
                  disk := assocSet pm.disk pid
                    (pageSerialize (updateChecksum (newPage pid FreePageType))) }) := by
  unfold deallocatePage writePageLocked
  by_cases hi : pid = InvalidPageID
  · simp [newPage, hi]
  · simp [newPage, hi, updateChecksum]

theorem c8_allocate_page (pm : PMState) (ty : Nat) :
    (∀ l pid, pm.freeList = l ++ [pid] →
      (allocatePage pm ty).1 = pid ∧
      (allocatePage pm ty).2.1.freeList = l ∧
      (allocatePage pm ty).2.1.nextPage = pm.nextPage) ∧
    (pm.freeList = [] →
      (allocatePage pm ty).1 = pm.nextPage ∧
      (allocatePage pm ty).2.1.nextPage = (pm.nextPage + 1) % 4294967296 ∧
      (allocatePage pm ty).2.1.freeList = []) ∧
    ((allocatePage pm ty).1 ≠ InvalidPageID →
      assocGet (allocatePage pm ty).2.1.disk (allocatePage pm ty).1
        = some (pageSerialize (updateChecksum (newPage (allocatePage pm ty).1 ty)))) ∧
    (∀ pid pm2, deallocatePage pm pid = .ok pm2 → (allocatePage pm2 ty).1 = pid) := by
  refine ⟨?_, ?_, ?_, ?_⟩
  · intro l pid h
    have hl : pm.freeList.getLast? = some pid := by rw [h]; simp
    have hd : pm.freeList.dropLast = l := by rw [h]; simp
    rw [allocatePage_spec, hl]
    by_cases hi : pid = InvalidPageID <;> simp [hi, hd]
  · intro h
    have hl : pm.freeList.getLast? = none := by rw [h]; rfl
    rw [allocatePage_spec, hl]
    by_cases hi : pm.nextPage = InvalidPageID <;> simp [hi, h]
  · intro h
    rw [allocatePage_spec] at h ⊢
    cases hl : pm.freeList.getLast? with
    | some p =>
      rw [hl] at h
      simp only at h ⊢
      split_ifs at h ⊢ with hi
      · exact absurd hi (by simpa using h)
      · simpa using assocGet_set_self pm.disk p (pageSerialize (updateChecksum (newPage p ty)))
    | none =>
      rw [hl] at h
      simp only at h ⊢
      split_ifs at h ⊢ with hi
      · exact absurd hi (by simpa using h)
      · simpa using assocGet_set_self pm.disk pm.nextPage
          (pageSerialize (updateChecksum (newPage pm.nextPage ty)))
  · intro pid pm2 h
    rw [deallocatePage_spec] at h
    by_cases hi : pid = InvalidPageID
    · rw [if_pos hi] at h; exact absurd h (by simp)
    · rw [if_neg hi] at h
      injection h with h3
      have h2 : pm2.freeList.getLast? = some pid := by rw [← h3]; simp
      rw [allocatePage_spec, h2]
      by_cases hj : pid = InvalidPageID <;> simp [hj]

/-- Node reads are untouched by a write at a different arena index. -/
theorem getN_setN_ne (t : Tree) (i j : Nat) (r : NodeRec) (h : i ≠ j) :
    getN (setN t i r) j = getN t j := by
  simp [getN, setN, List.getElem?_set_ne h]

/-- deleteFromLeafOp rewrites exactly one arena slot and keeps the root. -/
theorem deleteFromLeafOp_frame (t : Tree) (leafId index j : Nat) (h : leafId ≠ j) :
    getN (deleteFromLeafOp t leafId index) j = getN t j ∧
    (deleteFromLeafOp t leafId index).root = t.root := by
  unfold deleteFromLeafOp
  cases hg : getN t leafId with
  | none => exact ⟨rfl, rfl⟩
  | some leaf =>
    simp only [handleUnderflow]
    constructor
    · split
      · exact getN_setN_ne t leafId j _ h
      · exact getN_setN_ne t leafId j _ h
    · split
      · rfl
      · rfl

/-- C10 amended: Delete modifies at most the descent target node. -/
theorem c10_delete_frame (t : Tree) (key : Bytes) (j : Nat)
    (h : deleteTarget t key ≠ some j) :
    getN (deleteOp t key) j = getN t j ∧ (deleteOp t key).root = t.root := by
  unfold deleteOp
  cases hr : t.root with
  | none => exact ⟨rfl, hr⟩
  | some r =>
    have hj : findLeafLoop t key r (t.nodes.length + 1) ≠ j := by
      intro he
      exact h (by simp [deleteTarget, hr, he])
    simp only
    cases hg : getN t (findLeafLoop t key r (t.nodes.length + 1)) with
    | none => exact ⟨rfl, hr⟩
    | some leaf =>
      dsimp only
      split_ifs with hc
      · have hf := deleteFromLeafOp_frame t (findLeafLoop t key r (t.nodes.length + 1))
          (findKeyIndex (some leaf) key) j hj
        exact ⟨hf.1, hf.2.trans hr⟩
      · exact ⟨rfl, hr⟩

set_option maxHeartbeats 2000000 in
/-- C10 amended witness: on the two-leaf tree t5 the descent for key01
targets slot 0, so slot 1 and the root are untouched by Delete key01. -/
theorem c10_delete_frame_witness :
    deleteTarget t5 key01 ≠ some 1 ∧
    (getN (deleteOp t5 key01) 1 = getN t5 1 ∧ (deleteOp t5 key01).root = t5.root) :=
  ⟨by decide, c10_delete_frame t5 key01 1 (by decide)⟩

set_option maxHeartbeats 2000000 in
/-- C10 counterexample: in the tree reached by the eleven in-order
inserts, Delete key09 lands on arena slot 6 (a splitInternal leftover
internal node with a nil visible child slot) and removes its separator
key: a node that is not a leaf changes, while the leaf that really
holds key09 (slot 5) keeps its three keys.  So Delete does not only
modify the leaf containing the key. -/
theorem c10_counterexample :
    deleteTarget t11 key09 = some 6 ∧
    (getN t11 6).map NodeRec.isLeaf = some false ∧
    (getN t11 6).map NodeRec.numKeys = some 1 ∧
    (getN (deleteOp t11 key09) 6).map NodeRec.numKeys = some 0 ∧
    (getN t11 5).map NodeRec.isLeaf = some true ∧
    (getN t11 5).map (fun n => keyAt n 0) = some (some key09) ∧
    (getN t11 5).map NodeRec.numKeys = some 3 ∧
    (getN (deleteOp t11 key09) 5).map NodeRec.numKeys = some 3 := by
  refine ⟨by decide, by decide, by decide, by decide, by decide, by decide, by decide, by decide⟩

set_option maxHeartbeats 2000000 in
/-- C1 (code bug evaluation): with MaxKeys = 4, after the ten in-order
inserts of key01 .. key10 the tree answers Get key10 = (val10, true);
the eleventh insert key11 triggers the internal root split, which parks
the moved last child at slot MaxKeys/2 = 2 of a one-key node, leaving
child slot 1 nil, and from then on Get key10 returns (nil, false) and
Get key09 returns (nil, true), although neither key was overwritten or
deleted afterwards. -/
theorem c1_get_after_set_violated :
    getOp t10 key10 = (some val10, true) ∧
    getOp t10 key09 = (some val09, true) ∧
    getOp t11 key10 = (none, false) ∧
    getOp t11 key09 = (none, true) := by
  refine ⟨by decide, by decide, by decide, by decide⟩

set_option maxHeartbeats 4000000 in
/-- C2 (code bug evaluation): the same five Set calls are run against
the in-memory BTree and against the DiskBTree.  The in-memory tree
splits the full leaf and keeps key05; the disk variant has no split in
insertIntoLeaf and silently drops the fifth insert, so the two variants
disagree on Get key05 while the disk variant still serves the keys that
fit below capacity. -/
theorem c2_disk_divergence :
    getOp t5 key05 = (some val05, true) ∧
    dGet d5 key05 = (none, false) ∧
    dGet d5 key04 = (some val04, true) := by
  refine ⟨by decide, by decide, by decide⟩

set_option maxHeartbeats 2000000 in
/-- C3 (code bug evaluation): after inserting key01 .. key05 (which
splits into two leaves under one root) and deleting key01, the left
leaf (arena slot 0) is a non-root node holding 1 < MinKeys = 2 keys,
and it stays that way: handleUnderflow has an empty body, so no borrow
or merge happens. -/
theorem c3_underflow_unresolved :
    MinKeys = 2 ∧
    (getN (deleteOp t5 key01) 0).map NodeRec.numKeys = some 1 ∧
    (getN (deleteOp t5 key01) 0).map NodeRec.parent = some (some 2) ∧
    (getN (deleteOp t5 key01) 0).map NodeRec.isUnderflow = some true := by
  refine ⟨by decide, by decide, by decide, by decide⟩

set_option maxHeartbeats 2000000 in
/-- C5: with MaxKeys = 4, after inserting key01 .. key06 into an empty
tree, Size is 6, every key is retrievable with its value, and the
iterator FindLarger key02 yields exactly key03, key04, key05, key06 in
order and then ends. -/
theorem c5_concrete_scenario :
    sizeOp t6 = 6 ∧
    getOp t6 key01 = (some val01, true) ∧
    getOp t6 key02 = (some val02, true) ∧
    getOp t6 key03 = (some val03, true) ∧
    getOp t6 key04 = (some val04, true) ∧
    getOp t6 key05 = (some val05, true) ∧
    getOp t6 key06 = (some val06, true) ∧
    (let s1 := nextIter t6 (findLargerOp t6 key02)
     let s2 := nextIter t6 s1.2
     let s3 := nextIter t6 s2.2
     let s4 := nextIter t6 s3.2
     let s5 := nextIter t6 s4.2
     s1.1 = (some key03, some val03) ∧
     s2.1 = (some key04, some val04) ∧
     s3.1 = (some key05, some val05) ∧
     s4.1 = (some key06, some val06) ∧
     s5.1 = (none, none) ∧
     containsNext t6 s4.2 = false) := by
  refine ⟨by decide, by decide, by decide, by decide, by decide, by decide, by decide, ?_⟩
  refine ⟨by decide, by decide, by decide, by decide, by decide, by decide⟩

/-- C8 witness: the allocator facts instantiated on concrete states:
pop 7 from free list [3, 7]; fresh id 9 on an empty free list with the
zeroed leaf page stored; id 5 reused right after deallocating page 5. -/
theorem c8_allocate_page_witness :
    (allocatePage pmA 1).1 = 7 ∧
    (allocatePage pmB 1).1 = 9 ∧
    assocGet (allocatePage pmB 1).2.1.disk (allocatePage pmB 1).1
      = some (pageSerialize (updateChecksum (newPage (allocatePage pmB 1).1 1))) ∧
    (allocatePage pmD 1).1 = 5 :=
  ⟨((c8_allocate_page pmA 1).1 [3] 7 rfl).1,
   ((c8_allocate_page pmB 1).2.1 rfl).1,
   (c8_allocate_page pmB 1).2.2.1 (by decide),
   (c8_allocate_page pmB 1).2.2.2 5 pmD rfl⟩

/-- C7 counterexample: a 25 byte buffer whose header declares an
internal node with five keys, followed by five empty keys, drives
DeserializeNode into the unguarded write at slot 4 of the four slot
key array: a runtime fault, neither a decoded node nor a TooShort or
Truncated error. -/
theorem c7_counterexample : deserializeNode c7input = .fault := by decide

theorem sameCore_refl (a : NodeRec) : sameCore a a :=
  ⟨rfl, rfl, rfl, rfl, rfl, rfl⟩

theorem sameCore_trans {a b c : NodeRec} (h1 : sameCore a b) (h2 : sameCore b c) :
    sameCore a c :=
  ⟨h1.1.trans h2.1, h1.2.1.trans h2.2.1, h1.2.2.1.trans h2.2.2.1,
   h1.2.2.2.1.trans h2.2.2.2.1, h1.2.2.2.2.1.trans h2.2.2.2.2.1,
   h1.2.2.2.2.2.trans h2.2.2.2.2.2⟩

theorem sameCore_parent (a : NodeRec) (p : Option Nat) :
    sameCore { a with parent := p } a :=
  ⟨rfl, rfl, rfl, rfl, rfl, rfl⟩

/-- Membership of a successful arena read. -/
theorem getN_mem {t : Tree} {i : Nat} {n : NodeRec} (h : getN t i = some n) :
    n ∈ t.nodes := by
  have := List.getElem?_eq_some_iff.mp h
  obtain ⟨hl, he⟩ := this
  exact he ▸ List.getElem_mem hl

/-- noChildOf survives an arena write whose record does not point its
parent link at L. -/
theorem noChildOf_setN {t : Tree} {L : Nat} (i : Nat) {r : NodeRec} (h : noChildOf t L)
    (hr : r.parent ≠ some L) : noChildOf (setN t i r) L := by
  refine ⟨by simpa [setN] using h.1, ?_⟩
  intro n hn
  rcases List.mem_or_eq_of_mem_set hn with h1 | h1
  · exact h.2 n h1
  · exact h1 ▸ hr

/-- noChildOf survives appending records that do not point their parent
links at L. -/
theorem noChildOf_append {t : Tree} {L : Nat} {l : List NodeRec} (h : noChildOf t L)
    (hl : ∀ n ∈ l, n.parent ≠ some L) :
    noChildOf { t with nodes := t.nodes ++ l } L := by
  have h1 := h.1
  refine ⟨by simp only [List.length_append]; omega, ?_⟩
  intro n hn
  rcases List.mem_append.mp hn with h1 | h1
  · exact h.2 n h1
  · exact hl n h1

/-- An arena read below the old length is untouched by an append. -/
theorem getN_append_left {t : Tree} {l : List NodeRec} {j : Nat} (h : j < t.nodes.length) :
    getN { t with nodes := t.nodes ++ l } j = getN t j := by
  simp only [getN]
  exact List.getElem?_append_left h

/-- An arena read at a freshly written in-range slot. -/
theorem getN_setN_self {t : Tree} {i : Nat} (r : NodeRec) (h : i < t.nodes.length) :
    getN (setN t i r) i = some r := by
  simp only [getN, setN]
  exact List.getElem?_set_self (by simpa using h)

/-- The shift loop of insertIntoParent never changes the parent link. -/
theorem parentShiftFrom_parent (index : Nat) :
    ∀ i n, (parentShiftFrom n index i).parent = n.parent := by
  intro i
  induction i with
  | zero => intro n; rfl
  | succ i ih =>
    intro n
    show (if i + 1 > index then _ else n).parent = n.parent
    by_cases h : i + 1 > index
    · rw [if_pos h]; exact ih _
    · rw [if_neg h]

/-- The move loop of splitInternal only rewrites the split node, the
fresh node and parent links, so a node that is nobody's parent keeps
every field but its parent link. -/
theorem splitInternalMoveGo_frame (nodeId newId L : Nat) (hn : nodeId ≠ L) (hw : newId ≠ L) :
    ∀ r t i m, noChildOf t L → getN t L = some m →
      ∃ m', getN (splitInternalMoveGo nodeId newId t i r) L = some m' ∧ sameCore m' m ∧
        noChildOf (splitInternalMoveGo nodeId newId t i r) L := by
  intro r
  induction r with
  | zero => intro t i m hnc hm; exact ⟨m, hm, sameCore_refl m, hnc⟩
  | succ r ih =>
    intro t i m hnc hm
    simp only [splitInternalMoveGo]
    by_cases hi : i < MaxKeys
    · rw [if_pos hi]
      cases h1 : getN t nodeId with
      | none => dsimp only; exact ih t (i + 1) m hnc hm
      | some nd =>
        cases h2 : getN t newId with
        | none => dsimp only; exact ih t (i + 1) m hnc hm
        | some nw =>
          dsimp only
          have hndp : nd.parent ≠ some L := hnc.2 nd (getN_mem h1)
          have hnwp : nw.parent ≠ some L := hnc.2 nw (getN_mem h2)
          generalize hmc : nd.children.getD i none = mc
          generalize hnd2 : ({ nd with
              keys := nd.keys.set i none,
              children := nd.children.set i none } : NodeRec) = nd2
          generalize hnw2 : ({ nw with
              keys := nw.keys.set (i - MaxKeys / 2 - 1) (nd.keys.getD i none),
              children := nw.children.set (i - MaxKeys / 2 - 1) mc } : NodeRec) = nw2
          have hnd2p : nd2.parent ≠ some L := by rw [← hnd2]; exact hndp
          have hnw2p : nw2.parent ≠ some L := by rw [← hnw2]; exact hnwp
          have hnc3 : noChildOf (setN (setN t nodeId nd2) newId nw2) L :=
            noChildOf_setN newId (noChildOf_setN nodeId hnc hnd2p) hnw2p
          have hm3 : getN (setN (setN t nodeId nd2) newId nw2) L = some m := by
            rw [getN_setN_ne _ _ _ _ hw, getN_setN_ne _ _ _ _ hn]; exact hm
          cases mc with
          | none => dsimp only; exact ih _ (i + 1) m hnc3 hm3
          | some cid =>
            dsimp only
            cases h4 : getN (setN (setN t nodeId nd2) newId nw2) cid with
            | none => dsimp only; exact ih _ (i + 1) m hnc3 hm3
            | some c =>
              dsimp only
              have hparent : (some newId : Option Nat) ≠ some L :=
                fun hEq => hw (Option.some.inj hEq)
              have hnc4 : noChildOf (setN (setN (setN t nodeId nd2) newId nw2) cid
                  { c with parent := some newId }) L :=
                noChildOf_setN cid hnc3 hparent
              by_cases hcl : cid = L
              · rw [hcl] at h4
                have hcm : c = m := by rw [h4] at hm3; exact Option.some.inj hm3
                have hm4 : getN (setN (setN (setN t nodeId nd2) newId nw2) cid
                    { c with parent := some newId }) L = some { c with parent := some newId } := by
                  rw [hcl]
                  exact getN_setN_self _ hnc3.1
                obtain ⟨m', hm', hc', hnc'⟩ := ih _ (i + 1) _ hnc4 hm4
                refine ⟨m', hm', sameCore_trans hc' ?_, hnc'⟩
                rw [hcm]
                exact sameCore_parent m _
              · have hm4 : getN (setN (setN (setN t nodeId nd2) newId nw2) cid
                    { c with parent := some newId }) L = some m := by
                  rw [getN_setN_ne _ _ _ _ hcl]; exact hm3
                exact ih _ (i + 1) m hnc4 hm4
    · rw [if_neg hi]
      exact ⟨m, hm, sameCore_refl m, hnc⟩

/-- Arena reads ignore the root pointer. -/
theorem getN_setRoot (t : Tree) (r : Option Nat) (j : Nat) :
    getN { t with root := r } j = getN t j := rfl

/-- Inserting into a parent record never changes its parent link. -/
theorem insertedParent_parent (parent : NodeRec) (key : Option Bytes) (rightId : Nat) :
    (insertedParent parent key rightId).parent = parent.parent := by
  unfold insertedParent
  exact parentShiftFrom_parent _ _ _

/-- The new root construction at the top of the split chain only
reparents the two split halves, so the record at any other index is
untouched. -/
theorem newRootStep_frame (L nodeId newId : Nat) (middleKey : Option Bytes)
    (hn : nodeId ≠ L) (hw : newId ≠ L) (tD : Tree) (mD : NodeRec)
    (hL : L < tD.nodes.length) (hm : getN tD L = some mD) :
    getN (newRootStep tD nodeId newId middleKey) L = some mD := by
  unfold newRootStep
  dsimp only
  generalize ({ newInternalNode with
      keys := newInternalNode.keys.set 0 middleKey,
      children := (newInternalNode.children.set 0 (some nodeId)).set 1 (some newId),
      numKeys := 1 } : NodeRec) = newRoot
  rw [getN_setRoot]
  cases h5 : getN { tD with nodes := tD.nodes ++ [newRoot] } nodeId with
  | none =>
    dsimp only
    cases h6 : getN { tD with nodes := tD.nodes ++ [newRoot] } newId with
    | none =>
      dsimp only
      exact (getN_append_left hL).trans hm
    | some b =>
      dsimp only
      rw [getN_setN_ne _ _ _ _ hw]
      exact (getN_append_left hL).trans hm
  | some a =>
    dsimp only
    cases h6 : getN (setN { tD with nodes := tD.nodes ++ [newRoot] } nodeId
        { a with parent := some tD.nodes.length }) newId with
    | none =>
      dsimp only
      rw [getN_setN_ne _ _ _ _ hn]
      exact (getN_append_left hL).trans hm
    | some b =>
      dsimp only
      rw [getN_setN_ne _ _ _ _ hw, getN_setN_ne _ _ _ _ hn]
      exact (getN_append_left hL).trans hm

/-- The upward insert and split chain of the B+Tree only rewrites
parent records on the chain, freshly appended nodes, and parent links:
a node that is nobody's parent and is not itself the first target keeps
every field but its parent link. -/
theorem upChain_frame (L : Nat) :
    ∀ fuel t c m, noChildOf t L →
      (match c with
       | UpCall.intoParent p _ _ => p ≠ L
       | UpCall.splitNode nid => nid ≠ L) →
      getN t L = some m →
      ∃ m', getN (upChain fuel t c) L = some m' ∧ sameCore m' m := by
  intro fuel
  induction fuel with
  | zero =>
    intro t c m hnc hav hm
    exact ⟨m, hm, sameCore_refl m⟩
  | succ fuel ih =>
    intro t c m hnc hav hm
    cases c with
    | intoParent parentId key rightId =>
      have hpL : parentId ≠ L := hav
      simp only [upChain]
      have stage : ∀ t1 m1, noChildOf t1 L → getN t1 L = some m1 → sameCore m1 m →
          ∃ m', getN (match getN t1 parentId with
              | none => t1
              | some parent =>
                if (insertedParent parent key rightId).isFull then
                  upChain fuel (setN t1 parentId (insertedParent parent key rightId))
                    (.splitNode parentId)
                else setN t1 parentId (insertedParent parent key rightId)) L
            = some m' ∧ sameCore m' m := by
        intro t1 m1 h1 h2 h3
        cases hp : getN t1 parentId with
        | none => exact ⟨m1, h2, h3⟩
        | some parent =>
          dsimp only
          have hp3 : (insertedParent parent key rightId).parent ≠ some L := by
            rw [insertedParent_parent]
            exact h1.2 parent (getN_mem hp)
          have hnc2 : noChildOf (setN t1 parentId (insertedParent parent key rightId)) L :=
            noChildOf_setN _ h1 hp3
          have hm2 : getN (setN t1 parentId (insertedParent parent key rightId)) L = some m1 := by
            rw [getN_setN_ne _ _ _ _ hpL]
            exact h2
          by_cases hfull : (insertedParent parent key rightId).isFull = true
          · rw [if_pos hfull]
            obtain ⟨m', hm', hc'⟩ := ih _ (.splitNode parentId) m1 hnc2 hpL hm2
            exact ⟨m', hm', sameCore_trans hc' h3⟩
          · rw [if_neg hfull]
            exact ⟨m1, hm2, h3⟩
      cases h1 : getN t rightId with
      | none =>
        dsimp only
        exact stage t m hnc hm (sameCore_refl m)
      | some rc =>
        dsimp only
        have hsome : (some parentId : Option Nat) ≠ some L :=
          fun he => hpL (Option.some.inj he)
        by_cases hrl : rightId = L
        · rw [hrl] at h1
          have hrm : rc = m := by rw [h1] at hm; exact Option.some.inj hm
          have hnc1 : noChildOf (setN t rightId { rc with parent := some parentId }) L :=
            noChildOf_setN _ hnc hsome
          have hm1 : getN (setN t rightId { rc with parent := some parentId }) L
              = some { rc with parent := some parentId } := by
            rw [hrl]
            exact getN_setN_self _ hnc.1
          refine stage _ _ hnc1 hm1 ?_
          rw [hrm]
          exact sameCore_parent m _
        · have hnc1 : noChildOf (setN t rightId { rc with parent := some parentId }) L :=
            noChildOf_setN _ hnc hsome
          have hm1 : getN (setN t rightId { rc with parent := some parentId }) L = some m := by
            rw [getN_setN_ne _ _ _ _ hrl]
            exact hm
          exact stage _ m hnc1 hm1 (sameCore_refl m)
    | splitNode nodeId =>
      have hnL : nodeId ≠ L := hav
      simp only [upChain, splitInternalMove]
      have hL : L < t.nodes.length := hnc.1
      have hwL : t.nodes.length ≠ L := by omega
      have hncA : noChildOf { t with nodes := t.nodes ++ [newInternalNode] } L := by
        refine noChildOf_append hnc ?_
        intro n hn2
        rw [List.mem_singleton] at hn2
        rw [hn2]
        intro he
        exact Option.noConfusion he
      have hmA : getN { t with nodes := t.nodes ++ [newInternalNode] } L = some m :=
        (getN_append_left hL).trans hm
      obtain ⟨mB, hmB, hcB, hncB⟩ := splitInternalMoveGo_frame nodeId t.nodes.length L hnL hwL
        (MaxKeys - (MaxKeys / 2 + 1)) { t with nodes := t.nodes ++ [newInternalNode] }
        (MaxKeys / 2 + 1) m hncA hmA
      generalize hTB : splitInternalMoveGo nodeId t.nodes.length
          { t with nodes := t.nodes ++ [newInternalNode] } (MaxKeys / 2 + 1)
          (MaxKeys - (MaxKeys / 2 + 1)) = tB at hmB hncB ⊢
      cases h1 : getN tB nodeId with
      | none =>
        dsimp only
        exact ⟨mB, hmB, hcB⟩
      | some nd =>
        cases h2 : getN tB t.nodes.length with
        | none =>
          dsimp only
          exact ⟨mB, hmB, hcB⟩
        | some nw =>
          dsimp only
          have hndp : nd.parent ≠ some L := hncB.2 nd (getN_mem h1)
          have hnwp : nw.parent ≠ some L := hncB.2 nw (getN_mem h2)
          generalize hmc : nd.children.getD MaxKeys none = lastChild
          generalize hmk : nd.keys.getD (MaxKeys / 2) none = middleKey
          generalize hnw2 : ({ nw with
              children := nw.children.set (MaxKeys / 2) lastChild,
              numKeys := MaxKeys - MaxKeys / 2 - 1 } : NodeRec) = nw2
          generalize hnd2 : ({ nd with
              children := nd.children.set MaxKeys none,
              keys := nd.keys.set (MaxKeys / 2) none,
              numKeys := MaxKeys / 2 } : NodeRec) = nd2
          have hnd2p : nd2.parent ≠ some L := by rw [← hnd2]; exact hndp
          have hnw2p : nw2.parent ≠ some L := by rw [← hnw2]; exact hnwp
          have hnc3 : noChildOf (setN (setN tB nodeId nd2) t.nodes.length nw2) L :=
            noChildOf_setN _ (noChildOf_setN _ hncB hnd2p) hnw2p
          have hm3 : getN (setN (setN tB nodeId nd2) t.nodes.length nw2) L = some mB := by
            rw [getN_setN_ne _ _ _ _ hwL, getN_setN_ne _ _ _ _ hnL]
            exact hmB
          have tailStep : ∀ tD mD, noChildOf tD L → getN tD L = some mD → sameCore mD m →
              ∃ m', getN (match nd.parent with
                | none => newRootStep tD nodeId t.nodes.length middleKey
                | some pId => upChain fuel tD (.intoParent pId middleKey t.nodes.length)) L
              = some m' ∧ sameCore m' m := by
            intro tD mD hD1 hD2 hD3
            cases hpp : nd.parent with
            | none =>
              dsimp only
              exact ⟨mD, newRootStep_frame L nodeId t.nodes.length middleKey hnL hwL tD mD
                hD1.1 hD2, hD3⟩
            | some pId =>
              dsimp only
              have hpL2 : pId ≠ L := by
                intro he
                rw [he] at hpp
                exact hndp hpp
              obtain ⟨m', hm', hc'⟩ := ih tD (.intoParent pId middleKey t.nodes.length) mD
                hD1 hpL2 hD2
              exact ⟨m', hm', sameCore_trans hc' hD3⟩
          cases lastChild with
          | none =>
            dsimp only
            exact tailStep _ mB hnc3 hm3 hcB
          | some cid =>
            dsimp only
            cases h4 : getN (setN (setN tB nodeId nd2) t.nodes.length nw2) cid with
            | none =>
              dsimp only
              exact tailStep _ mB hnc3 hm3 hcB
            | some c =>
              dsimp only
              have hsome : (some t.nodes.length : Option Nat) ≠ some L :=
                fun he => hwL (Option.some.inj he)
              by_cases hcl : cid = L
              · rw [hcl] at h4 ⊢
                have hcm : c = mB := by rw [h4] at hm3; exact Option.some.inj hm3
                refine tailStep _ { c with parent := some t.nodes.length }
                  (noChildOf_setN _ hnc3 hsome) (getN_setN_self _ hnc3.1) ?_
                rw [hcm]
                exact sameCore_trans (sameCore_parent mB _) hcB
              · refine tailStep _ mB (noChildOf_setN _ hnc3 hsome) ?_ hcB
                rw [getN_setN_ne _ _ _ _ hcl]
                exact hm3

set_option maxHeartbeats 2000000 in
/-- The cut shapes of the two leaves a leaf split produces: the merge
buffer contents land below and above the cut at (MaxKeys + 1) / 2. -/
theorem splitLeftRec_take (r : NodeRec) (key val : Bytes) (index newId : Nat)
    (hfull : r.numKeys = MaxKeys) (hkl : r.keys.length = MaxKeys)
    (hvl : r.values.length = MaxKeys) (hidx : index ≤ MaxKeys) :
    (splitLeftRec r key val index newId).keys.take ((MaxKeys + 1) / 2)
      = (r.keys.take index ++ [some key] ++ r.keys.drop index).take ((MaxKeys + 1) / 2) ∧
    (splitLeftRec r key val index newId).values.take ((MaxKeys + 1) / 2)
      = (r.values.take index ++ [some val] ++ r.values.drop index).take ((MaxKeys + 1) / 2) ∧
    (splitRightRec r key val index).keys.take (MaxKeys + 1 - (MaxKeys + 1) / 2)
      = (r.keys.take index ++ [some key] ++ r.keys.drop index).drop ((MaxKeys + 1) / 2) ∧
    (splitRightRec r key val index).values.take (MaxKeys + 1 - (MaxKeys + 1) / 2)
      = (r.values.take index ++ [some val] ++ r.values.drop index).drop ((MaxKeys + 1) / 2) := by
  obtain ⟨ty, ks, vs, ch, nx, pr, nk⟩ := r
  simp only at hfull hkl hvl
  subst hfull
  rcases ks with _ | ⟨k0, _ | ⟨k1, _ | ⟨k2, _ | ⟨k3, ktl⟩⟩⟩⟩ <;> simp [MaxKeys] at hkl
  rcases vs with _ | ⟨v0, _ | ⟨v1, _ | ⟨v2, _ | ⟨v3, vtl⟩⟩⟩⟩ <;> simp [MaxKeys] at hvl
  subst hkl hvl
  rw [show MaxKeys = 4 from rfl] at hidx
  interval_cases index <;> exact ⟨rfl, rfl, rfl, rfl⟩

set_option maxHeartbeats 2000000 in
/-- C4 counterexample: the fifth in-order insert hits a root leaf that
holds MaxKeys = 4 keys; after the split the left leaf (slot 0) keeps
only 2 keys and the right leaf (slot 1) receives 3, contradicting the
claimed cut at ceil((MaxKeys+1)/2) with left 3 / right 2. -/
theorem c4_counterexample :
    MaxKeys = 4 ∧
    (getN t4 0).map NodeRec.numKeys = some MaxKeys ∧
    (getN t5 0).map NodeRec.numKeys = some 2 ∧
    (getN t5 1).map NodeRec.numKeys = some 3 ∧
    (getN t5 0).map NodeRec.next = some (some 1) := by
  refine ⟨by decide, by decide, by decide, by decide, by decide⟩

/-- A list read at a position written inside the left part of an
append. -/
theorem list_set_append_get_self {α : Type} (A : List α) (i : Nat) (L : α) (rest : List α)
    (h : i < A.length) : (A.set i L ++ rest)[i]? = some L := by
  rw [List.getElem?_append_left (by simpa using h)]
  exact List.getElem?_set_self (by simpa using h)

/-- A list read at the seam position of a double append. -/
theorem list_mid_get {α : Type} (A : List α) (R x : α) (rest : List α) :
    (A ++ [R] ++ rest)[A.length]? = some R := by
  rw [List.getElem?_append_left (by simp)]
  rw [List.getElem?_append_right (by simp)]
  simp

/-- In the root-leaf case, splitAndInsert replaces the split leaf by
the left record and appends the right record, both reparented under the
fresh root. -/
theorem splitAndInsert_root (t : Tree) (leafId : Nat) (r : NodeRec) (key val : Bytes) (index : Nat)
    (hr : getN t leafId = some r) (hp : r.parent = none) (hlen : leafId < t.nodes.length) :
    getN (splitAndInsert t leafId key val index) leafId
      = some { splitLeftRec r key val index t.nodes.length with parent := some (t.nodes.length + 1) } ∧
    getN (splitAndInsert t leafId key val index) t.nodes.length
      = some { splitRightRec r key val index with parent := some (t.nodes.length + 1) } := by
  unfold splitAndInsert
  rw [hr]
  dsimp only
  rw [hp]
  dsimp only [getN, setN]
  generalize hL : splitLeftRec r key val index t.nodes.length = L
  generalize hR : splitRightRec r key val index = R
  have h1 : (t.nodes.set leafId L ++ [R] ++
      [{ newInternalNode with
         keys := newInternalNode.keys.set 0 (R.keys.getD 0 none),
         children := (newInternalNode.children.set 0 (some leafId)).set 1 (some t.nodes.length),
         numKeys := 1 }])[leafId]? = some L := by
    rw [List.append_assoc]
    exact list_set_append_get_self t.nodes leafId L _ hlen
  rw [h1]
  dsimp only
  simp only [List.length_append, List.length_set, List.length_singleton]
  have hne : leafId ≠ t.nodes.length := Nat.ne_of_lt hlen
  have h2 : ((t.nodes.set leafId L ++ [R] ++
      [{ newInternalNode with
         keys := newInternalNode.keys.set 0 (R.keys.getD 0 none),
         children := (newInternalNode.children.set 0 (some leafId)).set 1 (some t.nodes.length),
         numKeys := 1 }]).set leafId
        { L with parent := some (t.nodes.length + 1) })[t.nodes.length]? = some R := by
    rw [List.getElem?_set_ne hne]
    have hA : (t.nodes.set leafId L).length = t.nodes.length := by simp
    rw [← hA]
    exact list_mid_get (t.nodes.set leafId L) R L _
  rw [h2]
  dsimp only
  constructor
  · rw [List.getElem?_set_ne (Ne.symm hne), List.getElem?_set_self
      (by simp only [List.length_set, List.length_append, List.length_singleton]; omega)]
  · rw [List.getElem?_set_self
      (by simp only [List.length_set, List.length_append, List.length_singleton]; omega)]

set_option maxHeartbeats 1000000 in
/-- C4 amended general: when Set splits a full leaf, root or not, the
merge buffer of the old contents plus the new entry is cut at
mid = (MaxKeys + 1) / 2 rounded down (2 when MaxKeys is 4): the left
leaf keeps the merged entries below mid, the right leaf receives the
merged entries from mid on, and the chain is relinked as
right.next = left.next and left.next = right.  The two arena
hypotheses say no node claims the split leaf as its parent and parent
links stay inside the arena, both invariants of every reachable
tree. -/
theorem c4_amended_split (t : Tree) (leafId : Nat) (r : NodeRec) (key val : Bytes) (index : Nat)
    (hr : getN t leafId = some r) (hty : r.ty = .leaf)
    (hfull : r.numKeys = MaxKeys) (hkl : r.keys.length = MaxKeys) (hvl : r.values.length = MaxKeys)
    (hidx : index ≤ MaxKeys)
    (hnc : ∀ n ∈ t.nodes, n.parent ≠ some leafId)
    (hpb : ∀ n ∈ t.nodes, ∀ p, n.parent = some p → p < t.nodes.length) :
    ∃ left right,
      getN (splitAndInsert t leafId key val index) leafId = some left ∧
      getN (splitAndInsert t leafId key val index) t.nodes.length = some right ∧
      left.numKeys = (MaxKeys + 1) / 2 ∧
      right.numKeys = MaxKeys + 1 - (MaxKeys + 1) / 2 ∧
      left.keys.take ((MaxKeys + 1) / 2)
        = (r.keys.take index ++ [some key] ++ r.keys.drop index).take ((MaxKeys + 1) / 2) ∧
      left.values.take ((MaxKeys + 1) / 2)
        = (r.values.take index ++ [some val] ++ r.values.drop index).take ((MaxKeys + 1) / 2) ∧
      right.keys.take (MaxKeys + 1 - (MaxKeys + 1) / 2)
        = (r.keys.take index ++ [some key] ++ r.keys.drop index).drop ((MaxKeys + 1) / 2) ∧
      right.values.take (MaxKeys + 1 - (MaxKeys + 1) / 2)
        = (r.values.take index ++ [some val] ++ r.values.drop index).drop ((MaxKeys + 1) / 2) ∧
      right.next = r.next ∧
      left.next = some t.nodes.length := by
  have hlen : leafId < t.nodes.length := by
    by_contra hn
    rw [getN, List.getElem?_eq_none (by omega)] at hr
    exact Option.noConfusion hr
  obtain ⟨e1, e2, e3, e4⟩ := splitLeftRec_take r key val index t.nodes.length hfull hkl hvl hidx
  cases hpar : r.parent with
  | none =>
    obtain ⟨hA, hB⟩ := splitAndInsert_root t leafId r key val index hr hpar hlen
    exact ⟨_, _, hA, hB, rfl, rfl, e1, e2, e3, e4, rfl, rfl⟩
  | some pId =>
    have hprL : pId ≠ leafId := by
      have h2 := hnc r (getN_mem hr)
      rw [hpar] at h2
      exact fun he => h2 (by rw [he])
    have hplt : pId < t.nodes.length := hpb r (getN_mem hr) pId hpar
    have hL2p : (splitLeftRec r key val index t.nodes.length).parent = some pId := hpar
    have hNLp : (splitRightRec r key val index).parent = none := rfl
    have hlen2 : leafId
        < (setN t leafId (splitLeftRec r key val index t.nodes.length)).nodes.length := by
      simpa [setN] using hlen
    have hmB : getN { setN t leafId (splitLeftRec r key val index t.nodes.length) with
        nodes := (setN t leafId (splitLeftRec r key val index t.nodes.length)).nodes
          ++ [splitRightRec r key val index] } leafId
        = some (splitLeftRec r key val index t.nodes.length) :=
      (getN_append_left hlen2).trans (getN_setN_self _ hlen)
    have hmBR : getN { setN t leafId (splitLeftRec r key val index t.nodes.length) with
        nodes := (setN t leafId (splitLeftRec r key val index t.nodes.length)).nodes
          ++ [splitRightRec r key val index] } t.nodes.length
        = some (splitRightRec r key val index) := by
      show ((setN t leafId (splitLeftRec r key val index t.nodes.length)).nodes
        ++ [splitRightRec r key val index])[t.nodes.length]? = some _
      have hA : (setN t leafId (splitLeftRec r key val index t.nodes.length)).nodes.length
          = t.nodes.length := by simp [setN]
      rw [List.getElem?_append_right (le_of_eq hA)]
      rw [hA, Nat.sub_self]
      rfl
    have hncBL : noChildOf { setN t leafId (splitLeftRec r key val index t.nodes.length) with
        nodes := (setN t leafId (splitLeftRec r key val index t.nodes.length)).nodes
          ++ [splitRightRec r key val index] } leafId := by
      constructor
      · show leafId < ((setN t leafId (splitLeftRec r key val index t.nodes.length)).nodes
          ++ [splitRightRec r key val index]).length
        simp only [List.length_append, List.length_singleton, setN, List.length_set]
        omega
      · intro n hn
        rcases List.mem_append.mp hn with h1 | h1
        · rcases List.mem_or_eq_of_mem_set h1 with h2 | h2
          · exact hnc n h2
          · rw [h2, hL2p]
            exact fun he => hprL (Option.some.inj he)
        · rw [List.mem_singleton] at h1
          rw [h1, hNLp]
          exact fun he => Option.noConfusion he
    have hncBR : noChildOf { setN t leafId (splitLeftRec r key val index t.nodes.length) with
        nodes := (setN t leafId (splitLeftRec r key val index t.nodes.length)).nodes
          ++ [splitRightRec r key val index] } t.nodes.length := by
      constructor
      · show t.nodes.length < ((setN t leafId (splitLeftRec r key val index t.nodes.length)).nodes
          ++ [splitRightRec r key val index]).length
        simp only [List.length_append, List.length_singleton, setN, List.length_set]
        omega
      · intro n hn
        rcases List.mem_append.mp hn with h1 | h1
        · rcases List.mem_or_eq_of_mem_set h1 with h2 | h2
          · intro he
            exact absurd (hpb n h2 _ he) (by omega)
          · rw [h2, hL2p]
            intro he
            exact absurd hplt (by rw [Option.some.inj he]; omega)
        · rw [List.mem_singleton] at h1
          rw [h1, hNLp]
          exact fun he => Option.noConfusion he
    unfold splitAndInsert
    rw [hr]
    dsimp only
    rw [hpar]
    dsimp only
    simp only [insertIntoParentF]
    obtain ⟨left, hgl, hcl⟩ := upChain_frame leafId _ _
      (.intoParent pId ((splitRightRec r key val index).keys.getD 0 none) t.nodes.length)
      (splitLeftRec r key val index t.nodes.length) hncBL hprL hmB
    obtain ⟨right, hgr, hcr⟩ := upChain_frame t.nodes.length _ _
      (.intoParent pId ((splitRightRec r key val index).keys.getD 0 none) t.nodes.length)
      (splitRightRec r key val index) hncBR (Nat.ne_of_lt hplt) hmBR
    refine ⟨left, right, hgl, hgr, hcl.2.2.2.2.2, hcr.2.2.2.2.2, ?_, ?_, ?_, ?_,
      hcr.2.2.2.2.1, hcl.2.2.2.2.1⟩
    · rw [hcl.2.1]; exact e1
    · rw [hcl.2.2.1]; exact e2
    · rw [hcr.2.1]; exact e3
    · rw [hcr.2.2.1]; exact e4

set_option maxHeartbeats 2000000 in
/-- C4 amended witness: splitting the full non root right leaf of t6
while inserting key07 at index 4 produces a left leaf with 2 keys and
a right leaf with 3 keys, chained left to right. -/
theorem c4_amended_split_witness :
    getN t6 1 = some rec6 ∧ rec6.parent = some 2 ∧ rec6.numKeys = MaxKeys ∧ 4 ≤ MaxKeys ∧
    (∃ left right,
      getN (splitAndInsert t6 1 key07 val07 4) 1 = some left ∧
      getN (splitAndInsert t6 1 key07 val07 4) t6.nodes.length = some right ∧
      left.numKeys = (MaxKeys + 1) / 2 ∧
      right.numKeys = MaxKeys + 1 - (MaxKeys + 1) / 2 ∧
      right.next = rec6.next ∧ left.next = some t6.nodes.length) := by
  refine ⟨by decide, by decide, by decide, by decide, ?_⟩
  obtain ⟨l, rr, h1, h2, h3, h4, h5, h6, h7, h8, h9, h10⟩ :=
    c4_amended_split t6 1 rec6 key07 val07 4 (by decide) (by decide) (by decide) (by decide)
      (by decide) (by decide) (by decide)
      (by
        have hd : ∀ n ∈ t6.nodes, n.parent.getD 0 < t6.nodes.length := by decide
        intro n hn p hp
        have h3 := hd n hn
        rw [hp] at h3
        exact h3)
  exact ⟨l, rr, h1, h2, h3, h4, h9, h10⟩

/-- Reading back a little endian 32 bit encoding. -/
theorem readLE32_le32 (n : Nat) (rest : List Nat) (h : n < 4294967296) :
    readLE32 (le32 n ++ rest) = n := by
  simp only [le32, readLE32, List.cons_append, List.nil_append]
  simp only [List.getD_cons_zero, List.getD_cons_succ]
  omega

/-- A 32 bit encoding is four bytes. -/
theorem le32_length (n : Nat) : (le32 n).length = 4 := rfl

/-- The serializer loop succeeds and appends the entry encoding when
all keys in range are non nil. -/
theorem serializeEntriesGo_eq (r : NodeRec) :
    ∀ rem i buf, i + rem = r.numKeys →
      (∀ j, i ≤ j → j < r.numKeys → (keyAt r j).isSome = true) →
      serializeEntriesGo r i buf rem = .ok (buf ++ encodeFromGo r i rem) := by
  intro rem
  induction rem with
  | zero =>
    intro i buf h hsome
    simp [serializeEntriesGo, encodeFromGo]
  | succ rem ih =>
    intro i buf h hsome
    have hi : i < r.numKeys := by omega
    obtain ⟨k, hk⟩ := Option.isSome_iff_exists.mp (hsome i le_rfl hi)
    simp only [serializeEntriesGo, hi, if_pos, hk]
    rw [ih (i + 1) _ (by omega) (fun j hj1 hj2 => hsome j (by omega) hj2)]
    by_cases hleaf : r.isLeaf = true
    · simp [encodeFromGo, encodeEntry, hk, goBytes, hleaf, List.append_assoc]
    · simp [encodeFromGo, encodeEntry, hk, goBytes, hleaf, List.append_assoc]

/-- Closed form of a successful SerializeNode run. -/
theorem serializeNode_eq (r : NodeRec)
    (hsome : ∀ j, j < r.numKeys → (keyAt r j).isSome = true) :
    serializeNode (some r)
      = .ok ([nodeTypeByte r] ++ le32 r.numKeys ++ encodeFromGo r 0 r.numKeys ++ serTrailer r) := by
  unfold serializeNode
  dsimp only
  have he : serializeEntries r 0 ([if r.isLeaf then 1 else 0] ++ le32 r.numKeys)
      = .ok (([if r.isLeaf then 1 else 0] ++ le32 r.numKeys) ++ encodeFromGo r 0 r.numKeys) := by
    unfold serializeEntries
    simpa using serializeEntriesGo_eq r r.numKeys 0 _ (by omega)
      (fun j hj1 hj2 => hsome j hj2)
  rw [he]
  by_cases hleaf : r.isLeaf = true
  · simp [hleaf, nodeTypeByte, serTrailer, List.append_assoc]
  · simp [hleaf, nodeTypeByte, serTrailer, List.append_assoc]

/-- The decode fill only touches keys and values. -/
theorem fillFromGo_fields (r : NodeRec) :
    ∀ rem i node,
      (fillFromGo r i node rem).ty = node.ty ∧
      (fillFromGo r i node rem).next = node.next ∧
      (fillFromGo r i node rem).parent = node.parent ∧
      (fillFromGo r i node rem).children = node.children ∧
      (fillFromGo r i node rem).numKeys = node.numKeys ∧
      (fillFromGo r i node rem).keys.length = node.keys.length ∧
      (fillFromGo r i node rem).values.length = node.values.length := by
  intro rem
  induction rem with
  | zero => intro i node; simp [fillFromGo]
  | succ rem ih =>
    intro i node
    simp only [fillFromGo]
    by_cases hleaf : node.isLeaf = true
    · have h2 : ({ node with keys := node.keys.set i (some (goBytes (keyAt r i))) } : NodeRec).isLeaf
          = true := hleaf
      rw [if_pos h2]
      obtain ⟨a, b, c, d, e, f, g⟩ := ih (i + 1)
        { node with keys := node.keys.set i (some (goBytes (keyAt r i))),
                    values := node.values.set i (some (goBytes (valueAt r i))) }
      simp_all
    · have h2 : ({ node with keys := node.keys.set i (some (goBytes (keyAt r i))) } : NodeRec).isLeaf
          = true → False := fun hx => hleaf hx
      rw [if_neg (by exact fun hx => h2 hx)]
      obtain ⟨a, b, c, d, e, f, g⟩ := ih (i + 1)
        { node with keys := node.keys.set i (some (goBytes (keyAt r i))) }
      simp_all

/-- The decode fill leaves slots below its start index unchanged. -/
theorem fillFromGo_keys_lt (r : NodeRec) :
    ∀ rem i node j, j < i →
      (fillFromGo r i node rem).keys.getD j none = node.keys.getD j none ∧
      (fillFromGo r i node rem).values.getD j none = node.values.getD j none := by
  intro rem
  induction rem with
  | zero => intro i node j hj; simp [fillFromGo]
  | succ rem ih =>
    intro i node j hj
    simp only [fillFromGo]
    have hne : i ≠ j := by omega
    by_cases hleaf : ({ node with keys := node.keys.set i (some (goBytes (keyAt r i))) } : NodeRec).isLeaf = true
    · rw [if_pos hleaf]
      obtain ⟨a, b⟩ := ih (i + 1)
        { node with keys := node.keys.set i (some (goBytes (keyAt r i))),
                    values := node.values.set i (some (goBytes (valueAt r i))) } j (by omega)
      constructor
      · rw [a]; simp [List.getD, List.getElem?_set_ne hne]
      · rw [b]; simp [List.getD, List.getElem?_set_ne hne]
    · rw [if_neg hleaf]
      obtain ⟨a, b⟩ := ih (i + 1)
        { node with keys := node.keys.set i (some (goBytes (keyAt r i))) } j (by omega)
      constructor
      · rw [a]; simp [List.getD, List.getElem?_set_ne hne]
      · rw [b]

/-- The decode fill writes the encoded key and value at each slot in
its range. -/
theorem fillFromGo_getD (r : NodeRec) :
    ∀ rem i node j, i ≤ j → j < i + rem → j < node.keys.length →
      (fillFromGo r i node rem).keys.getD j none = some (goBytes (keyAt r j)) ∧
      (node.isLeaf = true → j < node.values.length →
        (fillFromGo r i node rem).values.getD j none = some (goBytes (valueAt r j))) := by
  intro rem
  induction rem with
  | zero => intro i node j h1 h2; omega
  | succ rem ih =>
    intro i node j h1 h2 hjk
    simp only [fillFromGo]
    by_cases hij : j = i
    · subst hij
      by_cases hleaf : ({ node with keys := node.keys.set j (some (goBytes (keyAt r j))) } : NodeRec).isLeaf = true
      · rw [if_pos hleaf]
        obtain ⟨a, b⟩ := fillFromGo_keys_lt r rem (j + 1)
          { node with keys := node.keys.set j (some (goBytes (keyAt r j))),
                      values := node.values.set j (some (goBytes (valueAt r j))) } j (by omega)
        constructor
        · rw [a]; simp [List.getD, List.getElem?_set_self hjk]
        · intro hnl hvj
          rw [b]; simp [List.getD, List.getElem?_set_self hvj]
      · rw [if_neg hleaf]
        obtain ⟨a, b⟩ := fillFromGo_keys_lt r rem (j + 1)
          { node with keys := node.keys.set j (some (goBytes (keyAt r j))) } j (by omega)
        constructor
        · rw [a]; simp [List.getD, List.getElem?_set_self hjk]
        · intro hnl hvj
          exact absurd hnl (fun hx => hleaf hx)
    · have hij2 : i + 1 ≤ j := by omega
      by_cases hleaf : ({ node with keys := node.keys.set i (some (goBytes (keyAt r i))) } : NodeRec).isLeaf = true
      · rw [if_pos hleaf]
        obtain ⟨a, b⟩ := ih (i + 1)
          { node with keys := node.keys.set i (some (goBytes (keyAt r i))),
                      values := node.values.set i (some (goBytes (valueAt r i))) } j hij2 (by omega)
          (by simpa using hjk)
        refine ⟨a, fun hnl hvj => b hleaf (by simpa using hvj)⟩
      · rw [if_neg hleaf]
        obtain ⟨a, b⟩ := ih (i + 1)
          { node with keys := node.keys.set i (some (goBytes (keyAt r i))) } j hij2 (by omega)
          (by simpa using hjk)
        refine ⟨a, fun hnl hvj => ?_⟩
        exact absurd hnl (fun hx => hleaf hx)

/-- Running the decode loop over an encoded entry stream rebuilds the
entries, whatever bytes follow them. -/
theorem deserLoopGo_encoded (r : NodeRec) (data : List Nat) :
    ∀ rem i node offset rest,
      data.drop offset = encodeFromGo r i rem ++ rest →
      offset ≤ data.length →
      i + rem ≤ node.keys.length →
      (node.isLeaf = true → i + rem ≤ node.values.length) →
      node.ty = r.ty →
      i + rem = r.numKeys →
      (∀ j, i ≤ j → j < r.numKeys → (goBytes (keyAt r j)).length < 4294967296) →
      (∀ j, i ≤ j → j < r.numKeys → (goBytes (valueAt r j)).length < 4294967296) →
      deserLoopGo data r.numKeys offset i node rem = .ok (fillFromGo r i node rem) := by
  intro rem
  induction rem with
  | zero =>
    intro i node offset rest hdrop hoff hk hv hty hn hkb hvb
    simp [deserLoopGo, fillFromGo]
  | succ rem ih =>
    intro i node offset rest hdrop hoff hk hv hty hn hkb hvb
    have hi : i < r.numKeys := by omega
    have hkb0 : (goBytes (keyAt r i)).length < 4294967296 := hkb i le_rfl hi
    have hvb0 : (goBytes (valueAt r i)).length < 4294967296 := hvb i le_rfl hi
    have hleaf_eq : node.isLeaf = r.isLeaf := by simp [NodeRec.isLeaf, hty]
    have hdrop1 : data.drop offset = le32 (goBytes (keyAt r i)).length ++
        (goBytes (keyAt r i) ++
          ((if r.isLeaf = true then le32 (goBytes (valueAt r i)).length ++ goBytes (valueAt r i)
            else []) ++ (encodeFromGo r (i + 1) rem ++ rest))) := by
      rw [hdrop]
      simp [encodeFromGo, encodeEntry, List.append_assoc]
    have h1 : data.length - offset = 4 + ((goBytes (keyAt r i)).length +
        ((if r.isLeaf = true then le32 (goBytes (valueAt r i)).length ++ goBytes (valueAt r i)
          else []).length + ((encodeFromGo r (i + 1) rem).length + rest.length))) := by
      have hc := congrArg List.length hdrop1
      simp only [List.length_drop, List.length_append, le32_length] at hc
      omega
    simp only [deserLoopGo]
    rw [if_pos hi]
    rw [if_neg (by omega : ¬ offset + 4 > data.length)]
    have hread1 : readLE32 (data.drop offset) = (goBytes (keyAt r i)).length := by
      rw [hdrop1]; exact readLE32_le32 _ _ hkb0
    rw [hread1]
    rw [if_neg (by omega : ¬ offset + 4 + (goBytes (keyAt r i)).length > data.length)]
    have hdrop2 : data.drop (offset + 4) = goBytes (keyAt r i) ++
        ((if r.isLeaf = true then le32 (goBytes (valueAt r i)).length ++ goBytes (valueAt r i)
          else []) ++ (encodeFromGo r (i + 1) rem ++ rest)) := by
      rw [← List.drop_drop, hdrop1]
      rw [show (4 : Nat) = (le32 (goBytes (keyAt r i)).length).length from rfl, List.drop_left]
    have htake1 : (data.drop (offset + 4)).take (goBytes (keyAt r i)).length
        = goBytes (keyAt r i) := by
      rw [hdrop2]; exact List.take_left _ _
    rw [htake1]
    rw [if_pos (show i < node.keys.length by omega)]
    have hdrop3 : data.drop (offset + 4 + (goBytes (keyAt r i)).length) =
        (if r.isLeaf = true then le32 (goBytes (valueAt r i)).length ++ goBytes (valueAt r i)
          else []) ++ (encodeFromGo r (i + 1) rem ++ rest) := by
      rw [← List.drop_drop, hdrop2, List.drop_left]
    by_cases hrl : r.isLeaf = true
    · have hn2leaf : ({ node with
          keys := node.keys.set i (some (goBytes (keyAt r i))) } : NodeRec).isLeaf = true := by
        show node.isLeaf = true
        rw [hleaf_eq, hrl]
      rw [if_pos hn2leaf]
      have hifl : (if r.isLeaf = true then
          le32 (goBytes (valueAt r i)).length ++ goBytes (valueAt r i) else []).length
          = 4 + (goBytes (valueAt r i)).length := by
        rw [if_pos hrl]; simp [le32_length]
      rw [if_neg (by omega : ¬ offset + 4 + (goBytes (keyAt r i)).length + 4 > data.length)]
      have hread2 : readLE32 (data.drop (offset + 4 + (goBytes (keyAt r i)).length))
          = (goBytes (valueAt r i)).length := by
        rw [hdrop3, if_pos hrl, List.append_assoc]
        exact readLE32_le32 _ _ hvb0
      rw [hread2]
      rw [if_neg (by omega :
        ¬ offset + 4 + (goBytes (keyAt r i)).length + 4 + (goBytes (valueAt r i)).length
          > data.length)]
      have hdrop4 : data.drop (offset + 4 + (goBytes (keyAt r i)).length + 4)
          = goBytes (valueAt r i) ++ (encodeFromGo r (i + 1) rem ++ rest) := by
        rw [← List.drop_drop, hdrop3, if_pos hrl, List.append_assoc]
        rw [show (4 : Nat) = (le32 (goBytes (valueAt r i)).length).length from rfl, List.drop_left]
      have htake2 : (data.drop (offset + 4 + (goBytes (keyAt r i)).length + 4)).take
          (goBytes (valueAt r i)).length = goBytes (valueAt r i) := by
        rw [hdrop4]; exact List.take_left _ _
      rw [htake2]
      rw [if_pos (show i < ({ node with
          keys := node.keys.set i (some (goBytes (keyAt r i))) } : NodeRec).values.length by
        have := hv (by rw [hleaf_eq, hrl])
        show i < node.values.length
        omega)]
      have hdrop5 : data.drop (offset + 4 + (goBytes (keyAt r i)).length + 4
          + (goBytes (valueAt r i)).length) = encodeFromGo r (i + 1) rem ++ rest := by
        rw [← List.drop_drop, hdrop4, List.drop_left]
      have hstep := ih (i + 1)
        { node with keys := node.keys.set i (some (goBytes (keyAt r i))),
                    values := node.values.set i (some (goBytes (valueAt r i))) }
        (offset + 4 + (goBytes (keyAt r i)).length + 4 + (goBytes (valueAt r i)).length)
        rest hdrop5 (by omega) (by simpa using (by omega : i + 1 + rem ≤ node.keys.length))
        (by intro hl; simpa using (by
              have := hv (by simpa using hl)
              omega : i + 1 + rem ≤ node.values.length))
        (by simpa using hty) (by omega)
        (fun j hj1 hj2 => hkb j (by omega) hj2) (fun j hj1 hj2 => hvb j (by omega) hj2)
      rw [hstep]
      simp only [fillFromGo]
      rw [if_pos hn2leaf]
    · have hn2leaf : ¬ ({ node with
          keys := node.keys.set i (some (goBytes (keyAt r i))) } : NodeRec).isLeaf = true := by
        show ¬ node.isLeaf = true
        rw [hleaf_eq]
        exact hrl
      rw [if_neg hn2leaf]
      have hdrop5 : data.drop (offset + 4 + (goBytes (keyAt r i)).length)
          = encodeFromGo r (i + 1) rem ++ rest := by
        rw [hdrop3, if_neg hrl, List.nil_append]
      have hstep := ih (i + 1)
        { node with keys := node.keys.set i (some (goBytes (keyAt r i))) }
        (offset + 4 + (goBytes (keyAt r i)).length)
        rest hdrop5 (by omega) (by simpa using (by omega : i + 1 + rem ≤ node.keys.length))
        (fun hl => absurd (by simpa using hl : node.isLeaf = true) (by rw [hleaf_eq]; exact hrl))
        (by simpa using hty) (by omega)
        (fun j hj1 hj2 => hkb j (by omega) hj2) (fun j hj1 hj2 => hvb j (by omega) hj2)
      rw [hstep]
      simp only [fillFromGo]
      rw [if_neg hn2leaf]

/-- Length of the zero trailer. -/
theorem zeros32_length (n : Nat) : (zeros32 n).length = 4 * n := by
  induction n with
  | zero => rfl
  | succ n ih => simp [zeros32, le32_length, ih]; omega

/-- The trailer is at least one word. -/
theorem serTrailer_length (r : NodeRec) : 4 ≤ (serTrailer r).length := by
  unfold serTrailer
  by_cases h : r.isLeaf = true
  · simp [h, le32_length]
  · rw [if_neg h, zeros32_length]
    omega

/-- The decoder seeds the node from the type byte. -/
theorem node0_of_byte (r : NodeRec) :
    (if nodeTypeByte r == 1 then newLeafNode else newInternalNode)
      = (if r.isLeaf = true then newLeafNode else newInternalNode) := by
  by_cases h : r.isLeaf = true <;> simp [nodeTypeByte, h]

/-- Decoding a serialized node with any bytes appended rebuilds the
node. -/
theorem deserializeNode_of_serialized (r : NodeRec)
    (h1 : r.numKeys ≤ MaxKeys)
    (hkb : ∀ j, j < r.numKeys → (goBytes (keyAt r j)).length < 4294967296)
    (hvb : ∀ j, j < r.numKeys → (goBytes (valueAt r j)).length < 4294967296)
    (extra : List Nat) :
    deserializeNode (([nodeTypeByte r] ++ le32 r.numKeys ++ encodeFromGo r 0 r.numKeys
        ++ serTrailer r) ++ extra)
      = .ok { fillFromGo r 0 (if r.isLeaf = true then newLeafNode else newInternalNode)
                r.numKeys with
              numKeys := r.numKeys } := by
  have hD : ([nodeTypeByte r] ++ le32 r.numKeys ++ encodeFromGo r 0 r.numKeys
      ++ serTrailer r) ++ extra
      = nodeTypeByte r :: (le32 r.numKeys ++ (encodeFromGo r 0 r.numKeys
        ++ (serTrailer r ++ extra))) := by
    simp [List.append_assoc]
  rw [hD]
  have hm : MaxKeys = 4 := rfl
  have hnk : r.numKeys < 4294967296 := by omega
  have hlen : (nodeTypeByte r :: (le32 r.numKeys ++ (encodeFromGo r 0 r.numKeys
      ++ (serTrailer r ++ extra)))).length
      = 1 + (4 + ((encodeFromGo r 0 r.numKeys).length
        + ((serTrailer r).length + extra.length))) := by
    simp [le32_length]
    omega
  have htr := serTrailer_length r
  have hdrop5 : (nodeTypeByte r :: (le32 r.numKeys ++ (encodeFromGo r 0 r.numKeys
      ++ (serTrailer r ++ extra)))).drop 5
      = encodeFromGo r 0 r.numKeys ++ (serTrailer r ++ extra) := by
    rw [show (5 : Nat) = 1 + 4 from rfl, ← List.drop_drop]
    rw [show (nodeTypeByte r :: (le32 r.numKeys ++ (encodeFromGo r 0 r.numKeys
      ++ (serTrailer r ++ extra)))).drop 1
      = le32 r.numKeys ++ (encodeFromGo r 0 r.numKeys ++ (serTrailer r ++ extra)) from rfl]
    rw [show (4 : Nat) = (le32 r.numKeys).length from rfl, List.drop_left]
  have hloop := deserLoopGo_encoded r
    (nodeTypeByte r :: (le32 r.numKeys ++ (encodeFromGo r 0 r.numKeys ++ (serTrailer r ++ extra))))
    r.numKeys 0 (if r.isLeaf = true then newLeafNode else newInternalNode) 5
    (serTrailer r ++ extra) hdrop5 (by rw [hlen]; omega)
    (by have hkeq : (if r.isLeaf = true then newLeafNode else newInternalNode).keys.length
          = MaxKeys := by
          by_cases h : r.isLeaf = true <;> simp [h, newLeafNode, newInternalNode]
        omega)
    (by intro hl
        by_cases h : r.isLeaf = true
        · have hveq : (if r.isLeaf = true then newLeafNode else newInternalNode).values.length
              = MaxKeys := by simp [h, newLeafNode]
          omega
        · rw [if_neg h] at hl
          exact absurd hl (by simp [newInternalNode, NodeRec.isLeaf]))
    (by by_cases h : r.isLeaf = true
        · simp only [h, if_pos]
          show NTy.leaf = r.ty
          have h2 : (r.ty == NTy.leaf) = true := h
          simp at h2
          exact h2.symm
        · simp only [h, if_neg]
          show NTy.internal = r.ty
          cases hty : r.ty
          · exact absurd (by simp [NodeRec.isLeaf, hty]) h
          · rfl)
    (by omega) (fun j hj1 hj2 => hkb j hj2) (fun j hj1 hj2 => hvb j hj2)
  have hdl : deserLoop
      (nodeTypeByte r :: (le32 r.numKeys ++ (encodeFromGo r 0 r.numKeys ++ (serTrailer r ++ extra))))
      5 (if r.isLeaf = true then newLeafNode else newInternalNode) 0 r.numKeys
      = .ok (fillFromGo r 0 (if r.isLeaf = true then newLeafNode else newInternalNode)
          r.numKeys) := by
    unfold deserLoop
    rw [Nat.sub_zero]
    exact hloop
  unfold deserializeNode
  rw [if_neg (by rw [hlen]; omega)]
  dsimp only
  rw [show ((nodeTypeByte r :: (le32 r.numKeys ++ (encodeFromGo r 0 r.numKeys
      ++ (serTrailer r ++ extra)))).getD 0 0) = nodeTypeByte r from rfl]
  rw [show ((nodeTypeByte r :: (le32 r.numKeys ++ (encodeFromGo r 0 r.numKeys
      ++ (serTrailer r ++ extra)))).drop 1)
      = le32 r.numKeys ++ (encodeFromGo r 0 r.numKeys ++ (serTrailer r ++ extra)) from rfl]
  rw [readLE32_le32 _ _ hnk]
  rw [node0_of_byte, hdl]

/-- The decoder seed node has the source node type. -/
theorem node0_ty (r : NodeRec) :
    (if r.isLeaf = true then newLeafNode else newInternalNode).ty = r.ty := by
  by_cases h : r.isLeaf = true
  · rw [if_pos h]
    show NTy.leaf = r.ty
    have h2 : (r.ty == NTy.leaf) = true := h
    simp at h2
    exact h2.symm
  · rw [if_neg h]
    show NTy.internal = r.ty
    cases hty : r.ty
    · exact absurd (by simp [NodeRec.isLeaf, hty]) h
    · rfl

/-- The decoder seed node has MaxKeys key slots. -/
theorem node0_keys_len (r : NodeRec) :
    (if r.isLeaf = true then newLeafNode else newInternalNode).keys.length = MaxKeys := by
  by_cases h : r.isLeaf = true <;> simp [h, newLeafNode, newInternalNode]

/-- C6: for every well formed node (at most MaxKeys keys, all keys non
nil, byte lengths within uint32), DeserializeNode applied to the output
of SerializeNode succeeds and reproduces the leaf flag, the key count,
every key and every leaf value, with a nil value reading back as empty
bytes. -/
theorem c6_codec_roundtrip (r : NodeRec)
    (h1 : r.numKeys ≤ MaxKeys)
    (hsome : ∀ j, j < r.numKeys → (keyAt r j).isSome = true)
    (hkb : ∀ j, j < r.numKeys → (goBytes (keyAt r j)).length < 4294967296)
    (hvb : ∀ j, j < r.numKeys → (goBytes (valueAt r j)).length < 4294967296) :
    ∃ buf n, serializeNode (some r) = .ok buf ∧ deserializeNode buf = .ok n ∧
      n.ty = r.ty ∧ n.numKeys = r.numKeys ∧
      (∀ j, j < r.numKeys → n.keys.getD j none = keyAt r j) ∧
      (r.isLeaf = true →
        ∀ j, j < r.numKeys → n.values.getD j none = some (goBytes (valueAt r j))) := by
  have hm : MaxKeys = 4 := rfl
  have hs := serializeNode_eq r hsome
  have hd := deserializeNode_of_serialized r h1 hkb hvb []
  rw [List.append_nil] at hd
  refine ⟨_, _, hs, hd, ?_, rfl, ?_, ?_⟩
  · show (fillFromGo r 0 (if r.isLeaf = true then newLeafNode else newInternalNode)
        r.numKeys).ty = r.ty
    rw [(fillFromGo_fields r r.numKeys 0 _).1, node0_ty]
  · intro j hj
    show (fillFromGo r 0 (if r.isLeaf = true then newLeafNode else newInternalNode)
        r.numKeys).keys.getD j none = keyAt r j
    have hg := (fillFromGo_getD r r.numKeys 0
      (if r.isLeaf = true then newLeafNode else newInternalNode) j (by omega) (by omega)
      (by rw [node0_keys_len]; omega)).1
    rw [hg]
    obtain ⟨k, hk⟩ := Option.isSome_iff_exists.mp (hsome j hj)
    rw [hk]
    rfl
  · intro hleaf j hj
    show (fillFromGo r 0 (if r.isLeaf = true then newLeafNode else newInternalNode)
        r.numKeys).values.getD j none = some (goBytes (valueAt r j))
    have hg := (fillFromGo_getD r r.numKeys 0
      (if r.isLeaf = true then newLeafNode else newInternalNode) j (by omega) (by omega)
      (by rw [node0_keys_len]; omega)).2
    exact hg (by rw [if_pos hleaf]; rfl) (by rw [if_pos hleaf]; show j < MaxKeys; omega)

/-- The decode loop never faults while the declared count fits the
slot arrays. -/
theorem deserLoopGo_total (data : List Nat) (numKeys : Nat) :
    ∀ rem i node offset,
      numKeys ≤ node.keys.length →
      (node.isLeaf = true → numKeys ≤ node.values.length) →
      resultTotal (deserLoopGo data numKeys offset i node rem) := by
  intro rem
  induction rem with
  | zero => intro i node offset hk hv; simp [deserLoopGo, resultTotal]
  | succ rem ih =>
    intro i node offset hk hv
    simp only [deserLoopGo]
    by_cases h1 : i < numKeys
    · rw [if_pos h1]
      by_cases g1 : offset + 4 > data.length
      · rw [if_pos g1]; simp [resultTotal, knownDeserErrs]
      · rw [if_neg g1]
        by_cases g2 : offset + 4 + readLE32 (data.drop offset) > data.length
        · rw [if_pos g2]; simp [resultTotal, knownDeserErrs]
        · rw [if_neg g2]
          rw [if_pos (show i < node.keys.length by omega)]
          by_cases hleaf : ({ node with keys := node.keys.set i (some ((data.drop (offset + 4)).take
              (readLE32 (data.drop offset)))) } : NodeRec).isLeaf = true
          · rw [if_pos hleaf]
            by_cases g3 : offset + 4 + readLE32 (data.drop offset) + 4 > data.length
            · rw [if_pos g3]; simp [resultTotal, knownDeserErrs]
            · rw [if_neg g3]
              by_cases g4 : offset + 4 + readLE32 (data.drop offset) + 4
                  + readLE32 (data.drop (offset + 4 + readLE32 (data.drop offset))) > data.length
              · rw [if_pos g4]; simp [resultTotal, knownDeserErrs]
              · rw [if_neg g4]
                have hvlen : numKeys ≤ node.values.length := hv (by simpa using hleaf)
                rw [if_pos (show i < ({ node with keys := node.keys.set i (some ((data.drop
                    (offset + 4)).take (readLE32 (data.drop offset)))) } : NodeRec).values.length by
                  show i < node.values.length
                  omega)]
                exact ih (i + 1) _ _ (by simpa using hk) (fun _ => by simpa using hvlen)
          · rw [if_neg hleaf]
            exact ih (i + 1) _ _ (by simpa using hk)
              (fun hx => absurd (show node.isLeaf = true by simpa using hx)
                (fun hy => hleaf (by simpa using hy)))
    · rw [if_neg h1]
      simp [resultTotal]

/-- C7 amended: for every input whose declared key count (the little
endian word at offset 1) is at most MaxKeys, DeserializeNode either
returns a node or one of the five known error messages (the TooShort
prefix error and the four Truncated errors), and never faults. -/
theorem c7_total_when_count_small (data : List Nat)
    (h : readLE32 (data.drop 1) ≤ MaxKeys) :
    resultTotal (deserializeNode data) := by
  unfold deserializeNode
  by_cases h5 : data.length < 5
  · rw [if_pos h5]; simp [resultTotal, knownDeserErrs]
  · rw [if_neg h5]
    dsimp only
    have hm : MaxKeys = 4 := rfl
    have hloop := deserLoopGo_total data (readLE32 (data.drop 1)) (readLE32 (data.drop 1)) 0
      (if data.getD 0 0 == 1 then newLeafNode else newInternalNode) 5
      (by have hkeq : (if data.getD 0 0 == 1 then newLeafNode
            else newInternalNode).keys.length = MaxKeys := by
            by_cases hb : (data.getD 0 0 == 1) = true
            · rw [if_pos hb]; rfl
            · rw [if_neg hb]; rfl
          rw [hkeq]; exact h)
      (by intro hl
          by_cases hb : (data.getD 0 0 == 1) = true
          · rw [if_pos hb]
            rw [show newLeafNode.values.length = MaxKeys from rfl]
            exact h
          · rw [if_neg hb] at hl
            exact absurd hl (by decide))
    unfold deserLoop
    rw [Nat.sub_zero]
    revert hloop
    cases deserLoopGo data (readLE32 (data.drop 1)) 5 0
        (if data.getD 0 0 == 1 then newLeafNode else newInternalNode)
        (readLE32 (data.drop 1)) with
    | ok n => intro hx; simp [resultTotal]
    | err m => intro hx; exact hx
    | fault => intro hx; exact hx

/-- The serializer loop does not read next, children or parent. -/
theorem serializeEntriesGo_congr (r : NodeRec) (nx : Option Nat) (ch : List (Option Nat))
    (pr : Option Nat) :
    ∀ rem i buf,
      serializeEntriesGo { r with next := nx, children := ch, parent := pr } i buf rem
        = serializeEntriesGo r i buf rem := by
  intro rem
  induction rem with
  | zero => intro i buf; rfl
  | succ rem ih =>
    intro i buf
    simp only [serializeEntriesGo]
    have hnum : ({ r with next := nx, children := ch, parent := pr } : NodeRec).numKeys
        = r.numKeys := rfl
    have hkey : keyAt { r with next := nx, children := ch, parent := pr } i = keyAt r i := rfl
    have hval : valueAt { r with next := nx, children := ch, parent := pr } i
        = valueAt r i := rfl
    have hlf : ({ r with next := nx, children := ch, parent := pr } : NodeRec).isLeaf
        = r.isLeaf := rfl
    rw [hnum, hkey, hval, hlf]
    by_cases hi : i < r.numKeys
    · rw [if_pos hi, if_pos hi]
      cases keyAt r i with
      | none => rfl
      | some k => dsimp only; rw [ih]
    · rw [if_neg hi, if_neg hi]

/-- SerializeNode does not read next, children or parent. -/
theorem serializeNode_link_free (r : NodeRec) (nx : Option Nat) (ch : List (Option Nat))
    (pr : Option Nat) :
    serializeNode (some { r with next := nx, children := ch, parent := pr })
      = serializeNode (some r) := by
  unfold serializeNode
  dsimp only
  unfold serializeEntries
  rw [show ({ r with next := nx, children := ch, parent := pr } : NodeRec).numKeys
    = r.numKeys from rfl]
  rw [show ({ r with next := nx, children := ch, parent := pr } : NodeRec).isLeaf
    = r.isLeaf from rfl]
  rw [serializeEntriesGo_congr]

/-- The zero trailer is a run of zero bytes. -/
theorem zeros32_replicate (n : Nat) : zeros32 n = List.replicate (4 * n) 0 := by
  induction n with
  | zero => rfl
  | succ n ih =>
    show le32 0 ++ zeros32 n = _
    rw [ih, show le32 0 = List.replicate 4 0 from rfl, ← List.replicate_add]
    congr 1
    omega

/-- Every successful encoding ends in its all zero trailer. -/
theorem serializeNode_trailer_zeros (r : NodeRec) (buf : List Nat)
    (h : serializeNode (some r) = .ok buf) :
    ∃ body, buf = body
      ++ List.replicate (4 * (if r.isLeaf = true then 1 else r.numKeys + 1)) 0 := by
  unfold serializeNode at h
  dsimp only at h
  revert h
  cases hse : serializeEntries r 0 ([if r.isLeaf = true then 1 else 0] ++ le32 r.numKeys) with
  | error e => intro h; exact absurd h (by simp)
  | ok buf2 =>
    intro h
    dsimp only at h
    by_cases hleaf : r.isLeaf = true
    · rw [if_pos hleaf] at h
      simp only [Except.ok.injEq] at h
      refine ⟨buf2, ?_⟩
      rw [← h, if_pos hleaf]
      rfl
    · rw [if_neg hleaf] at h
      simp only [Except.ok.injEq] at h
      refine ⟨buf2, ?_⟩
      rw [← h, if_neg hleaf, zeros32_replicate]

/-- Reading any slot of an all none list gives none. -/
theorem getD_replicate_none {α : Type} (k j : Nat) :
    (List.replicate k (none : Option α)).getD j none = none := by
  induction k generalizing j with
  | zero => simp [List.getD]
  | succ k ih =>
    cases j with
    | zero => rfl
    | succ j => simp only [List.replicate_succ, List.getD_cons_succ]; exact ih j

/-- The decode loop never writes the link fields. -/
theorem deserLoopGo_links (data : List Nat) (numKeys : Nat) :
    ∀ rem i node offset n,
      deserLoopGo data numKeys offset i node rem = .ok n →
      n.next = node.next ∧ n.parent = node.parent ∧ n.children = node.children := by
  intro rem
  induction rem with
  | zero =>
    intro i node offset n h
    simp only [deserLoopGo, DeserResult.ok.injEq] at h
    subst h
    exact ⟨rfl, rfl, rfl⟩
  | succ rem ih =>
    intro i node offset n h
    simp only [deserLoopGo] at h
    by_cases h1 : i < numKeys
    · rw [if_pos h1] at h
      by_cases g1 : offset + 4 > data.length
      · rw [if_pos g1] at h; exact absurd h (by simp)
      · rw [if_neg g1] at h
        by_cases g2 : offset + 4 + readLE32 (data.drop offset) > data.length
        · rw [if_pos g2] at h; exact absurd h (by simp)
        · rw [if_neg g2] at h
          by_cases g3 : i < node.keys.length
          · rw [if_pos g3] at h
            by_cases hleaf : ({ node with keys := node.keys.set i (some ((data.drop
                (offset + 4)).take (readLE32 (data.drop offset)))) } : NodeRec).isLeaf = true
            · rw [if_pos hleaf] at h
              by_cases g4 : offset + 4 + readLE32 (data.drop offset) + 4 > data.length
              · rw [if_pos g4] at h; exact absurd h (by simp)
              · rw [if_neg g4] at h
                by_cases g5 : offset + 4 + readLE32 (data.drop offset) + 4
                    + readLE32 (data.drop (offset + 4 + readLE32 (data.drop offset)))
                    > data.length
                · rw [if_pos g5] at h; exact absurd h (by simp)
                · rw [if_neg g5] at h
                  by_cases g6 : i < ({ node with keys := node.keys.set i (some ((data.drop
                      (offset + 4)).take (readLE32 (data.drop offset)))) } : NodeRec).values.length
                  · rw [if_pos g6] at h
                    have hres := ih _ _ _ _ h
                    exact hres
                  · rw [if_neg g6] at h; exact absurd h (by simp)
            · rw [if_neg hleaf] at h
              have hres := ih _ _ _ _ h
              exact hres
          · rw [if_neg g3] at h; exact absurd h (by simp)
    · rw [if_neg h1] at h
      simp only [DeserResult.ok.injEq] at h
      subst h
      exact ⟨rfl, rfl, rfl⟩

/-- A decoded node has its links at the constructor defaults. -/
theorem deserializeNode_links (data : List Nat) (n : NodeRec)
    (h : deserializeNode data = .ok n) :
    n.next = none ∧ n.parent = none ∧ (∀ j, n.children.getD j none = none) := by
  unfold deserializeNode at h
  by_cases h5 : data.length < 5
  · rw [if_pos h5] at h; exact absurd h (by simp)
  · rw [if_neg h5] at h
    dsimp only at h
    revert h
    unfold deserLoop
    rw [Nat.sub_zero]
    cases hl : deserLoopGo data (readLE32 (data.drop 1)) 5 0
        (if data.getD 0 0 == 1 then newLeafNode else newInternalNode)
        (readLE32 (data.drop 1)) with
    | ok m =>
      intro h
      simp only [DeserResult.ok.injEq] at h
      obtain ⟨a, b, c⟩ := deserLoopGo_links data (readLE32 (data.drop 1))
        (readLE32 (data.drop 1)) 0 _ 5 m hl
      subst h
      refine ⟨a.trans ?_, b.trans ?_, fun j => ?_⟩
      · by_cases hb : (data.getD 0 0 == 1) = true
        · rw [if_pos hb]; rfl
        · rw [if_neg hb]; rfl
      · by_cases hb : (data.getD 0 0 == 1) = true
        · rw [if_pos hb]; rfl
        · rw [if_neg hb]; rfl
      · show m.children.getD j none = none
        rw [c]
        by_cases hb : (data.getD 0 0 == 1) = true
        · rw [if_pos hb]
          rfl
        · rw [if_neg hb]
          exact getD_replicate_none (MaxKeys + 1) j
    | err m => intro h; exact absurd h (by simp)
    | fault => intro h; exact absurd h (by simp)

/-- Bytes after the encoded entries cannot change a successful
decode. -/
theorem deserializeNode_ignores_suffix (r : NodeRec) (buf extra : List Nat)
    (h1 : r.numKeys ≤ MaxKeys)
    (hsome : ∀ j, j < r.numKeys → (keyAt r j).isSome = true)
    (hkb : ∀ j, j < r.numKeys → (goBytes (keyAt r j)).length < 4294967296)
    (hvb : ∀ j, j < r.numKeys → (goBytes (valueAt r j)).length < 4294967296)
    (hs : serializeNode (some r) = .ok buf) :
    deserializeNode (buf ++ extra) = deserializeNode buf := by
  have he := serializeNode_eq r hsome
  rw [hs] at he
  injection he with hbuf
  rw [hbuf]
  rw [deserializeNode_of_serialized r h1 hkb hvb extra]
  rw [show ([nodeTypeByte r] ++ le32 r.numKeys ++ encodeFromGo r 0 r.numKeys ++ serTrailer r)
      = ([nodeTypeByte r] ++ le32 r.numKeys ++ encodeFromGo r 0 r.numKeys ++ serTrailer r)
        ++ [] from (List.append_nil _).symm]
  rw [deserializeNode_of_serialized r h1 hkb hvb []]

/-- C9: SerializeNode ignores the link fields entirely (same encoding
for any next, children and parent), its trailer is all zero bytes (one
word for leaves, keyCount+1 words for internal nodes), and
DeserializeNode leaves the decoded node links at their zero defaults
and never reads past the entries, so bytes after them cannot change a
successful decode. -/
theorem c9_trailer_and_links :
    (∀ (r : NodeRec) (nx : Option Nat) (ch : List (Option Nat)) (pr : Option Nat),
      serializeNode (some { r with next := nx, children := ch, parent := pr })
        = serializeNode (some r)) ∧
    (∀ (r : NodeRec) (buf : List Nat), serializeNode (some r) = .ok buf →
      ∃ body, buf = body
        ++ List.replicate (4 * (if r.isLeaf = true then 1 else r.numKeys + 1)) 0) ∧
    (∀ (data : List Nat) (n : NodeRec), deserializeNode data = .ok n →
      n.next = none ∧ n.parent = none ∧ (∀ j, n.children.getD j none = none)) ∧
    (∀ (r : NodeRec) (buf extra : List Nat), r.numKeys ≤ MaxKeys →
      (∀ j, j < r.numKeys → (keyAt r j).isSome = true) →
      (∀ j, j < r.numKeys → (goBytes (keyAt r j)).length < 4294967296) →
      (∀ j, j < r.numKeys → (goBytes (valueAt r j)).length < 4294967296) →
      serializeNode (some r) = .ok buf →
      deserializeNode (buf ++ extra) = deserializeNode buf) :=
  ⟨serializeNode_link_free, serializeNode_trailer_zeros, deserializeNode_links,
   fun r buf extra h1 hsome hkb hvb hs =>
     deserializeNode_ignores_suffix r buf extra h1 hsome hkb hvb hs⟩

/-- C6 witness: the round trip instantiated on rec4. -/
theorem c6_codec_roundtrip_witness :
    rec4.numKeys ≤ MaxKeys ∧
    (∃ buf n, serializeNode (some rec4) = .ok buf ∧ deserializeNode buf = .ok n ∧
      n.ty = rec4.ty ∧ n.numKeys = rec4.numKeys ∧
      (∀ j, j < rec4.numKeys → n.keys.getD j none = keyAt rec4 j) ∧
      (rec4.isLeaf = true →
        ∀ j, j < rec4.numKeys → n.values.getD j none = some (goBytes (valueAt rec4 j)))) :=
  ⟨by decide, c6_codec_roundtrip rec4 (by decide) (by decide) (by decide) (by decide)⟩

/-- C7 amended witness: totality instantiated on a short buffer with
declared count one. -/
theorem c7_total_witness :
    readLE32 (c7small.drop 1) ≤ MaxKeys ∧ resultTotal (deserializeNode c7small) :=
  ⟨by decide, c7_total_when_count_small c7small (by decide)⟩

/-- C9 witness: the four trailer and link facts instantiated on rec4
and its encoding. -/
theorem c9_witness :
    serializeNode (some { rec4 with next := some 9, children := [some 1], parent := some 2 })
      = serializeNode (some rec4) ∧
    (∃ body, c9buf = body
      ++ List.replicate (4 * (if rec4.isLeaf = true then 1 else rec4.numKeys + 1)) 0) ∧
    (c9node.next = none ∧ c9node.parent = none ∧ c9node.children.getD 0 none = none) ∧
    deserializeNode (c9buf ++ [7, 7]) = deserializeNode c9buf := by
  refine ⟨c9_trailer_and_links.1 rec4 (some 9) [some 1] (some 2),
          c9_trailer_and_links.2.1 rec4 c9buf rfl, ?_, ?_⟩
  · have h := c9_trailer_and_links.2.2.1 c9buf c9node rfl
    exact ⟨h.1, h.2.1, h.2.2 0⟩
  · exact c9_trailer_and_links.2.2.2 rec4 c9buf [7, 7] (by decide) (by decide) (by decide)
      (by decide) rfl

end DbModel
